import Mathlib

/-!
Verification development for the quodlibet `synchronize_to_device` plugin
(`quodlibet/ext/events/synchronize_to_device.py`).

The development shallowly embeds the reconciliation core of the plugin:

* `Entry`, `Tag` — the preview-tree entry class and its tag constants;
* the path sanitizer `_make_safe_name` (with a finite, representative
  fragment of the Unicode NFKD table standing in for `unicodedata`);
* the planning pass `_run_preview` (UI pumping and the running flag are
  omitted: the theorems quantify over completed planning runs);
* the manual-override handler `_row_edited` with its helpers
  `_make_duplicate`, `_make_unique`, `_make_skip`, `_update_others`,
  `_get_paths`;
* the executor `_run_sync` over an explicit filesystem state, with the
  cooperative running flag modelled as a function from the loop-iteration
  index to `Bool`, and log output modelled as structured records (the
  zero-padded counter formatting of the log template is presentation and
  is abstracted away).

`os.path.expanduser` is modelled as the identity (paths are treated as
already expanded).  All definitions are structural recursions so that they
evaluate inside the kernel.
-/

namespace SyncToDevice

/-- The three tag constants of `Entry.Tags`: `BLANK`, `DUPLICATE`, `DELETE`. -/
inductive Tag where
  | BLANK
  | DUPLICATE
  | DELETE
deriving DecidableEq, Repr, Inhabited

/-- The rendered tag text: `''`, `'<DUPLICATE>'`, `'<DELETE>'`. -/
def Tag.str : Tag → String
  | Tag.BLANK => ""
  | Tag.DUPLICATE => "<DUPLICATE>"
  | Tag.DELETE => "<DELETE>"

/-- One entry of the preview tree (`class Entry`).  For song entries
`filename` is the song's source file; for delete entries it is the
discovered file under the destination.  `basename` is display-only and is
omitted. -/
structure Entry where
  filename : String := ""
  export_path : String := ""
  tag : Tag := Tag.BLANK
deriving DecidableEq, Repr, Inhabited

/-- `Entry._set_export_display`: the tag, a separating space when both the
tag and the path are nonempty, then the path.  (For a `BLANK` tag the tag
text is empty and no space is inserted, so the display is the path; for a
nonempty tag with an empty path the display is just the tag text.) -/
def Entry.export_display (e : Entry) : String :=
  match e.tag with
  | Tag.BLANK => e.export_path
  | t => if e.export_path = "" then t.str else t.str ++ " " ++ e.export_path

/-! ## The path sanitizer `_make_safe_name`

The sanitizer works on `List Char`.  `unicodedata.normalize('NFKD', ·)`
and `unicodedata.combining` are modelled by a finite representative
fragment of the NFKD decomposition table and by the combining-diacritics
block U+0300–U+036F. -/

/-- `unicodedata.combining c != 0`, restricted to the combining
diacritical marks block. -/
def combiningChar (c : Char) : Bool :=
  0x300 ≤ c.toNat && c.toNat ≤ 0x36F

/-- A representative finite fragment of the NFKD decomposition table
(the program calls the external `unicodedata` module; accented Latin-1
letters decompose to a base letter followed by a combining mark). -/
def nfkdTable : List (Char × List Char) :=
  [ (Char.ofNat 0xE9, ['e', Char.ofNat 0x301]),
    (Char.ofNat 0xE8, ['e', Char.ofNat 0x300]),
    (Char.ofNat 0xE1, ['a', Char.ofNat 0x301]),
    (Char.ofNat 0xE0, ['a', Char.ofNat 0x300]),
    (Char.ofNat 0xE2, ['a', Char.ofNat 0x302]),
    (Char.ofNat 0xE7, ['c', Char.ofNat 0x327]),
    (Char.ofNat 0xF1, ['n', Char.ofNat 0x303]),
    (Char.ofNat 0xF6, ['o', Char.ofNat 0x308]),
    (Char.ofNat 0xFC, ['u', Char.ofNat 0x308]),
    (Char.ofNat 0xC9, ['E', Char.ofNat 0x301]),
    (Char.ofNat 0xC0, ['A', Char.ofNat 0x300]) ]

/-- NFKD decomposition of a single character. -/
def nfkdChar (c : Char) : List Char :=
  match nfkdTable.find? (fun kv => kv.1 = c) with
  | some kv => kv.2
  | none => [c]

/-- NFKD decomposition of a character list. -/
def nfkdList (l : List Char) : List Char :=
  (l.map nfkdChar).flatten

/-- `unicodedata.normalize('NFKD', s)` followed by dropping every
combining character — the accent-stripping prefix of `_make_safe_name`. -/
def stripAccentsList (l : List Char) : List Char :=
  (nfkdList l).filter (fun c => !combiningChar c)

/-- The character class of `unsafe_filename_chars`:
`[<>:"/\\|?*ÿ-￿]`. -/
def badChar (c : Char) : Bool :=
  ['<', '>', ':', '"', '/', '\\', '|', '?', '*'].contains c ||
    (0xFF ≤ c.toNat && c.toNat ≤ 0xFFFF)

/-- `unsafe_filename_chars.sub('_', component)`. -/
def replaceBad (l : List Char) : List Char :=
  l.map (fun c => if badChar c then '_' else c)

/-- `re.sub('_{2,}', '_', component)` — collapse each run of two or more
underscores to one; the boolean records whether the previously kept
character was an underscore. -/
def collapseUndGo : Bool → List Char → List Char
  | _, [] => []
  | prevU, c :: rest =>
    if c = '_' then
      if prevU then collapseUndGo true rest
      else '_' :: collapseUndGo true rest
    else c :: collapseUndGo false rest

/-- Collapse runs of underscores (`re.sub('_{2,}', '_', ·)`). -/
def collapseUnd (l : List Char) : List Char :=
  collapseUndGo false l

/-- Sanitization of one non-root path component. -/
def sanitizeComponent (l : List Char) : List Char :=
  collapseUnd (replaceBad l)

/-- Raw split on `'/'` (`str.split` semantics, keeping empty pieces). -/
def splitSlash : List Char → List (List Char)
  | [] => [[]]
  | c :: rest =>
    let r := splitSlash rest
    if c = '/' then [] :: r else (c :: r.headD []) :: r.tail

/-- `Path(s).parts` for a relative path: the nonempty slash-separated
components (the `.`-anchor quirk of `pathlib` on the empty path is
not modelled; the claims concern rendered relative paths). -/
def pathParts (l : List Char) : List (List Char) :=
  (splitSlash l).filter (fun p => !p.isEmpty)

/-- `os.path.join(*parts)` for relative parts. -/
def joinParts : List (List Char) → List Char
  | [] => []
  | [p] => p
  | p :: ps => p ++ '/' :: joinParts ps

/-- `SyncToDevice._make_safe_name` on the character list of the rendered
relative path: strip accents over the whole string, split into components,
replace unsafe characters and collapse underscore runs in every component
except the one at index 0, and rejoin. -/
def makeSafeNameList (l : List Char) : List Char :=
  match pathParts (stripAccentsList l) with
  | [] => []
  | c0 :: rest => joinParts (c0 :: rest.map sanitizeComponent)

/-- `_make_safe_name` at the `String` level. -/
def makeSafeName (s : String) : String :=
  String.mk (makeSafeNameList s.data)

/-- Modelled from the spec: the sanitizer as the specification words it —
"replace characters illegal … with `_` … in every path component except
the root" — applied to the rendered relative path, whose components are
all non-root components.  Used only to compare against the code's
`_make_safe_name`. -/
def specMakeSafeName (s : String) : String :=
  String.mk (joinParts ((pathParts (stripAccentsList s.data)).map sanitizeComponent))

/-! ## Plugin state: the PlanSet and its counters -/

/-- The mutable plugin state that planning and overrides operate on:
the preview model (`self.preview_model`, an ordered list of entries) and
the three counters `self.c_songs_copy`, `self.c_song_dupes`,
`self.c_songs_delete`. -/
structure SyncState where
  entries : List Entry
  c_songs_copy : Int := 0
  c_song_dupes : Int := 0
  c_songs_delete : Int := 0
deriving DecidableEq, Repr, Inhabited

/-- `SyncToDevice._get_paths` as a multiplicity function: the number of
entries counted for path `p` (the dict maps `p` to this number exactly
when it is nonzero, so `p` is a previewed path iff `getPaths s p ≠ 0`). -/
def getPaths (s : SyncState) (p : String) : Nat :=
  (s.entries.filter
    (fun e => decide (e.tag ≠ Tag.DELETE ∧ e.export_display ≠ ""
      ∧ e.export_path = p))).length

/-! ## The override handler `_row_edited` -/

/-- `new_text.split(Entry.Tags.tag_end)` — split on `'>'`. -/
def splitGt : List Char → List (List Char)
  | [] => [[]]
  | c :: rest =>
    let r := splitGt rest
    if c = '>' then [] :: r else (c :: r.headD []) :: r.tail

/-- `str.strip()` on a character list (whitespace at both ends). -/
def trimChars (l : List Char) : List Char :=
  ((l.dropWhile Char.isWhitespace).reverse.dropWhile Char.isWhitespace).reverse

/-- `new_text.split(Entry.Tags.tag_end)[-1].strip()`. -/
def parseNewPath (t : String) : String :=
  String.mk (trimChars ((splitGt t.data).getLastD []))

/-- `Path(filename).relative_to(dest)` succeeds — a shallow model of
`pathlib`'s check that `filename` lies at or below `dest`. -/
def pathRelTo (p d : String) : Bool :=
  decide (p = d) || (d.data ++ ['/']).isPrefixOf p.data

/-- The entry at index `j` of the preview model. -/
def SyncState.entryAt (s : SyncState) (j : Nat) : Entry :=
  s.entries.getD j default

/-- Replace the entry at index `j`. -/
def setEntry (s : SyncState) (j : Nat) (e : Entry) : SyncState :=
  { s with entries := s.entries.set j e }

/-- `_make_duplicate(entry, old_unique)` applied to index `j`. -/
def make_duplicate (s : SyncState) (j : Nat) (oldUnique : Bool) : SyncState :=
  let s' := setEntry s j { s.entryAt j with tag := Tag.DUPLICATE }
  { s' with
    c_song_dupes := s'.c_song_dupes + 1,
    c_songs_copy := if oldUnique then s'.c_songs_copy - 1 else s'.c_songs_copy }

/-- `_make_unique(entry, old_duplicate)` applied to index `j`. -/
def make_unique (s : SyncState) (j : Nat) (oldDuplicate : Bool) : SyncState :=
  let s' := setEntry s j { s.entryAt j with tag := Tag.BLANK }
  { s' with
    c_songs_copy := s'.c_songs_copy + 1,
    c_song_dupes := if oldDuplicate then s'.c_song_dupes - 1 else s'.c_song_dupes }

/-- The entry mutation of `_make_skip(entry, counter)`: remove the tag and
blank the export path (the `counter - 1` is applied by the caller to the
specific counter, as in the source). -/
def make_skip (s : SyncState) (j : Nat) : SyncState :=
  setEntry s j
    { s.entryAt j with tag := Tag.BLANK, export_path := "" }

/-- Set the export path of the entry at index `j`
(`entry.export_path = new_path`). -/
def setPath (s : SyncState) (j : Nat) (p : String) : SyncState :=
  setEntry s j { s.entryAt j with export_path := p }

/-- The loop body of `_update_others`, iterating over the given indices of
the preview model with the state threaded through (the source mutates the
model in place and re-reads `self._get_paths()` at each iteration).
`i` is the index of the edited entry (the `model_entry is entry` test). -/
def updateOthersGo (i : Nat) (newPath : String) :
    List Nat → SyncState → Nat → SyncState × Nat
  | [], s, counter => (s, counter)
  | j :: js, s, counter =>
    let e := s.entryAt j
    if j = i ∨ e.export_display = "<DELETE>" ∨ e.export_display = "" then
      updateOthersGo i newPath js s counter
    else if e.export_path = newPath ∧ e.tag = Tag.BLANK then
      updateOthersGo i newPath js (make_duplicate s j true) (counter + 1)
    else if e.tag = Tag.DUPLICATE ∧ e.export_path ≠ newPath
        ∧ getPaths s e.export_path = 1 then
      updateOthersGo i newPath js (make_unique s j true) (counter + 1)
    else updateOthersGo i newPath js s counter

/-- `_update_others()` — update all previewed paths based on the current
change; returns the updated state and the number of affected entries. -/
def update_others (s : SyncState) (i : Nat) (newPath : String) :
    SyncState × Nat :=
  updateOthersGo i newPath (List.range s.entries.length) s 0

/-- The informational log line of `_row_edited` (the `ngettext` plural
form is abstracted). -/
def changedMsg (n : Nat) : String :=
  if n = 0 then "Entry path changed successfully."
  else "Entry path changed successfully. This also affected "
    ++ toString n ++ " other files."

/-- The summary line printed by `_update_preview_summary` (wording
abbreviated; the claims only inspect state, not this text). -/
def summaryLine (s : SyncState) : String :=
  "Synchronization will: write " ++ toString s.c_songs_copy
    ++ ", skip " ++ toString s.c_song_dupes
    ++ ", delete " ++ toString s.c_songs_delete

/-- `SyncToDevice._row_edited` on the entry at index `i` with the edited
cell text `new_text`; `dest` is `self.expanded_destination`.  Returns the
new state and the log lines printed.  The branch structure mirrors the
source's `if`/`elif` chain: the four old-path categories are mutually
exclusive, and within each the new-path tests are made in source order. -/
def row_edited (s : SyncState) (i : Nat) (new_text : String) (dest : String) :
    SyncState × List String :=
  let entry := s.entryAt i
  if entry.export_display = new_text then (s, [])
  else
    let new_path := parseNewPath new_text
    let result : SyncState × Nat :=
      if entry.export_display = "" then
        if new_text = "" then (s, 0)
        else if new_text = "<DELETE>" then
          if pathRelTo entry.filename dest then
            ({ setEntry s i { entry with tag := Tag.DELETE } with
                c_songs_delete := s.c_songs_delete + 1 }, 0)
          else (s, 0)
        else if getPaths s new_path ≠ 0 then
          (setPath (make_duplicate s i false) i new_path, 0)
        else
          (setPath (make_unique s i false) i new_path, 0)
      else if entry.tag = Tag.DELETE then
        if new_text = "" then
          ({ make_skip s i with c_songs_delete := s.c_songs_delete - 1 }, 0)
        else (s, 0)
      else if entry.tag = Tag.DUPLICATE then
        if new_text = "" then
          let s1 := { make_skip s i with c_song_dupes := s.c_song_dupes - 1 }
          update_others s1 i new_path
        else if new_text = "<DELETE>" then
          let s1 := { make_skip s i with c_song_dupes := s.c_song_dupes - 1 }
          update_others s1 i new_path
        else if getPaths s new_path ≠ 0 then
          (setPath s i new_path, 0)
        else
          (setPath (make_unique s i true) i new_path, 0)
      else
        if new_text = "" then
          let s1 := { make_skip s i with c_songs_copy := s.c_songs_copy - 1 }
          update_others s1 i new_path
        else if new_text = "<DELETE>" then
          let s1 := { make_skip s i with c_songs_copy := s.c_songs_copy - 1 }
          update_others s1 i new_path
        else if getPaths s new_path ≠ 0 then
          (setPath (make_duplicate s i true) i new_path, 0)
        else
          let s1 := setPath s i new_path
          update_others s1 i new_path
    (result.1, [changedMsg result.2, summaryLine result.1])

/-! ## The planning pass `_run_preview` -/

/-- A candidate song, reduced to what planning reads from it: its source
file and the export path produced for it by `_get_export_path` (pattern
rendering is deterministic and external to the reconciliation core). -/
structure Song where
  filename : String
  export_path : String
deriving DecidableEq, Repr, Inhabited

/-- The song loop of `_run_preview`: `seen` is the `export_paths` list.
Returns `none` when a song's export path is empty (`if not export_path:
return False`).  Produces the song entries, the copy and duplicate
counters, and the final `export_paths` list. -/
def previewGo : List Song → List String →
    Option (List Entry × Int × Int × List String)
  | [], seen => some ([], 0, 0, seen)
  | sg :: rest, seen =>
    if sg.export_path = "" then none
    else if sg.export_path ∈ seen then
      match previewGo rest seen with
      | none => none
      | some (es, c, d, sn) =>
        some ({ filename := sg.filename, export_path := sg.export_path,
                tag := Tag.DUPLICATE } :: es, c, d + 1, sn)
    else
      match previewGo rest (seen ++ [sg.export_path]) with
      | none => none
      | some (es, c, d, sn) =>
        some ({ filename := sg.filename, export_path := sg.export_path,
                tag := Tag.BLANK } :: es, c + 1, d, sn)

/-- `SyncToDevice._run_preview`: classify every candidate song, then walk
the destination tree (`walkFiles` is the recursive file listing) and add a
delete entry for every file not among the planned paths.  Cancellation and
UI pumping are omitted: the claims quantify over completed runs. -/
def runPreview (songs : List Song) (walkFiles : List String) :
    Option SyncState :=
  match previewGo songs [] with
  | none => none
  | some (es, c, d, seen) =>
    let delFiles := walkFiles.filter (fun f => decide (f ∉ seen))
    let delEntries := delFiles.map
      (fun f => { filename := f, export_path := "", tag := Tag.DELETE : Entry })
    some { entries := es ++ delEntries,
           c_songs_copy := c,
           c_song_dupes := d,
           c_songs_delete := (delEntries.length : Int) }

/-! ## The executor `_run_sync` -/

/-- A filesystem state: a finite map from file path to file bytes, plus
the set of directories.  `makedirs` is modelled as inserting the created
directory path (the intermediate ancestors are collapsed into it; no claim
inspects them). -/
structure FS where
  files : List (String × String)
  dirs : List String
deriving DecidableEq, Repr, Inhabited

/-- `os.path.exists`. -/
def FS.existsPath (fs : FS) (p : String) : Bool :=
  fs.files.any (fun pv => pv.1 = p) || fs.dirs.contains p

/-- Read a file's bytes. -/
def FS.read (fs : FS) (p : String) : Option String :=
  (fs.files.find? (fun pv => pv.1 = p)).map (fun pv => pv.2)

/-- Write a file (`copyfile` destination side). -/
def FS.write (fs : FS) (p v : String) : FS :=
  { fs with files := (p, v) :: fs.files.filter (fun pv => !(pv.1 = p : Bool)) }

/-- `os.remove`-style removal of a file path from the map. -/
def FS.removeFile (fs : FS) (p : String) : FS :=
  { fs with files := fs.files.filter (fun pv => !(pv.1 = p : Bool)) }

/-- `os.makedirs(d, exist_ok=True)`. -/
def FS.makedirs (fs : FS) (d : String) : FS :=
  if fs.dirs.contains d then fs else { fs with dirs := d :: fs.dirs }

/-- `os.path.dirname`: everything before the last `'/'` (empty when the
path has no slash). -/
def dirname (p : String) : String :=
  String.mk (((p.data.reverse.dropWhile (fun c => !(c = '/' : Bool))).drop 1).reverse)

/-- The log lines of `_run_sync` and `_remove_empty_dirs`, as structured
records (the zero-padded counters of `log_template` are presentation and
are abstracted away). -/
inductive LogLine where
  | stoppedSync
  | statusExists (path : String)
  | statusCopy (path : String)
  | duplicateSkip (path : String)
  | deleteFile (path : String)
  | deleteFailed (path : String)
  | removeDir (path : String)
deriving DecidableEq, Repr

/-- The body of one `_run_sync` loop iteration, after the running-flag
check: the action taken for a single entry.  Returns `none` when
`copyfile` raises because the source file is missing (the exception is
uncaught in the source and aborts the run). -/
def stepEntry (fs : FS) (e : Entry) : Option (FS × List LogLine) :=
  if e.export_path = "" ∧ e.tag = Tag.BLANK then
    some (fs, [])
  else
    match e.tag with
    | Tag.BLANK =>
      if fs.existsPath e.export_path then
        some (fs, [LogLine.statusExists e.export_path])
      else
        match fs.read e.filename with
        | none => none
        | some v =>
          some ((fs.makedirs (dirname e.export_path)).write e.export_path v,
            [LogLine.statusCopy e.export_path])
    | Tag.DUPLICATE => some (fs, [LogLine.duplicateSkip e.export_path])
    | Tag.DELETE =>
      if fs.files.any (fun pv => pv.1 = e.filename) then
        some (fs.removeFile e.filename, [LogLine.deleteFile e.filename])
      else if fs.dirs.contains e.filename then
        some (fs, [LogLine.deleteFile e.filename])
      else
        some (fs, [LogLine.deleteFile e.filename,
          LogLine.deleteFailed e.filename])

/-- The entry loop of `_run_sync` without the flag and without the final
directory cleanup: the filesystem and log produced by processing the
entries in order. -/
def foldSteps : List Entry → FS → Option (FS × List LogLine)
  | [], fs => some (fs, [])
  | e :: rest, fs =>
    match stepEntry fs e with
    | none => none
    | some (fs', l) =>
      match foldSteps rest fs' with
      | none => none
      | some (fs'', l') => some (fs'', l ++ l')

/-- A directory is empty: nothing (file or other directory) lies under it. -/
def dirEmpty (fs : FS) (d : String) : Bool :=
  !(fs.files.any (fun pv => (d.data ++ ['/']).isPrefixOf pv.1.data)) &&
    !(fs.dirs.any (fun d' => !(d' = d : Bool)
      && (d.data ++ ['/']).isPrefixOf d'.data))

/-- Iterated removal of empty directories; the deepest-first order of
`os.walk(topdown=False)` is abstracted to a fixpoint computation that
removes some empty directory while one exists. -/
def removeEmptyDirsGo : Nat → FS → List LogLine → FS × List LogLine
  | 0, fs, log => (fs, log)
  | fuel + 1, fs, log =>
    match fs.dirs.find? (fun d => dirEmpty fs d) with
    | none => (fs, log)
    | some d =>
      removeEmptyDirsGo fuel
        { fs with dirs := fs.dirs.filter (fun d' => !(d' = d : Bool)) }
        (log ++ [LogLine.removeDir d])

/-- `SyncToDevice._remove_empty_dirs`. -/
def removeEmptyDirs (fs : FS) : FS × List LogLine :=
  removeEmptyDirsGo fs.dirs.length fs []

/-- The entry loop of `_run_sync` with the cooperative running flag:
`flags k` is the value of `self.running` read at the check preceding the
`k`-th loop iteration.  Returns the final filesystem, the log, and the
overall success flag; `none` models an uncaught `copyfile` exception. -/
def runSyncGo : List Entry → Nat → (Nat → Bool) → FS → List LogLine →
    Option (FS × List LogLine × Bool)
  | [], _, _, fs, log =>
    let r := removeEmptyDirs fs
    some (r.1, log ++ r.2, true)
  | e :: rest, k, flags, fs, log =>
    if flags k = false then some (fs, log ++ [LogLine.stoppedSync], false)
    else
      match stepEntry fs e with
      | none => none
      | some (fs', l) => runSyncGo rest (k + 1) flags fs' (log ++ l)

/-- `SyncToDevice._run_sync`. -/
def runSync (entries : List Entry) (flags : Nat → Bool) (fs : FS) :
    Option (FS × List LogLine × Bool) :=
  runSyncGo entries 0 flags fs []

/-! ## Facts about the sanitizer -/

theorem nfkdChar_fixed_of_mem (c d : Char) (h : d ∈ nfkdChar c) :
    nfkdChar d = [d] := by
  have htab : ∀ kv ∈ nfkdTable, ∀ x ∈ kv.2,
      nfkdTable.find? (fun kv2 => kv2.1 = x) = none := by decide
  unfold nfkdChar at h
  cases hf : nfkdTable.find? (fun kv => kv.1 = c) with
  | none =>
    rw [hf] at h
    simp at h
    subst h
    unfold nfkdChar
    rw [hf]
  | some kv =>
    rw [hf] at h
    have hmem : kv ∈ nfkdTable := List.mem_of_find?_eq_some hf
    unfold nfkdChar
    rw [htab kv hmem d h]

theorem mem_nfkdList (l : List Char) (d : Char) :
    d ∈ nfkdList l ↔ ∃ c ∈ l, d ∈ nfkdChar c := by
  unfold nfkdList
  simp

theorem stripAccents_chars (l : List Char) :
    ∀ d ∈ stripAccentsList l, nfkdChar d = [d] ∧ combiningChar d = false := by
  intro d hd
  unfold stripAccentsList at hd
  rw [List.mem_filter] at hd
  rcases hd with ⟨hmem, hcomb⟩
  rcases (mem_nfkdList l d).mp hmem with ⟨c, _, hdc⟩
  exact ⟨nfkdChar_fixed_of_mem c d hdc, by simpa using hcomb⟩

theorem nfkdList_fixed (l : List Char) (h : ∀ c ∈ l, nfkdChar c = [c]) :
    nfkdList l = l := by
  induction l with
  | nil => rfl
  | cons c r ih =>
    unfold nfkdList
    simp only [List.map_cons, List.flatten_cons]
    rw [h c (by simp)]
    have := ih (fun x hx => h x (by simp [hx]))
    unfold nfkdList at this
    rw [this]
    rfl

theorem stripAccents_fixed (l : List Char)
    (h : ∀ c ∈ l, nfkdChar c = [c] ∧ combiningChar c = false) :
    stripAccentsList l = l := by
  unfold stripAccentsList
  rw [nfkdList_fixed l (fun c hc => (h c hc).1)]
  exact List.filter_eq_self.mpr (fun c hc => by simp [(h c hc).2])

theorem splitSlash_ne_nil (l : List Char) : splitSlash l ≠ [] := by
  cases l with
  | nil => simp [splitSlash]
  | cons c r =>
    unfold splitSlash
    by_cases h : c = '/' <;> simp [h]

theorem mem_splitSlash_no_slash (l : List Char) :
    ∀ p ∈ splitSlash l, '/' ∉ p := by
  induction l with
  | nil =>
    intro p hp
    simp [splitSlash] at hp
    simp [hp]
  | cons c r ih =>
    intro p hp
    unfold splitSlash at hp
    by_cases h : c = '/'
    · simp [h] at hp
      rcases hp with hp | hp
      · simp [hp]
      · exact ih p hp
    · simp [h] at hp
      rcases hp with hp | hp
      · subst hp
        intro hc
        rcases List.mem_cons.mp hc with hc | hc
        · exact h hc.symm
        · cases hr : splitSlash r with
          | nil => exact absurd hr (splitSlash_ne_nil r)
          | cons q qs =>
            rw [hr] at hc
            simp at hc
            exact ih q (by simp [hr]) hc
      · cases hr : splitSlash r with
        | nil => exact absurd hr (splitSlash_ne_nil r)
        | cons q qs =>
          rw [hr] at hp
          simp at hp
          exact ih p (by simp [hr, hp])

theorem mem_splitSlash_sub (l : List Char) :
    ∀ p ∈ splitSlash l, ∀ c ∈ p, c ∈ l := by
  induction l with
  | nil =>
    intro p hp
    simp [splitSlash] at hp
    simp [hp]
  | cons a r ih =>
    intro p hp c hc
    unfold splitSlash at hp
    by_cases h : a = '/'
    · simp [h] at hp
      rcases hp with hp | hp
      · simp [hp] at hc
      · exact List.mem_cons_of_mem _ (ih p hp c hc)
    · simp [h] at hp
      rcases hp with hp | hp
      · subst hp
        rcases List.mem_cons.mp hc with hc | hc
        · simp [hc]
        · cases hr : splitSlash r with
          | nil => exact absurd hr (splitSlash_ne_nil r)
          | cons q qs =>
            rw [hr] at hc
            simp at hc
            exact List.mem_cons_of_mem _ (ih q (by simp [hr]) c hc)
      · cases hr : splitSlash r with
        | nil => exact absurd hr (splitSlash_ne_nil r)
        | cons q qs =>
          rw [hr] at hp
          simp at hp
          exact List.mem_cons_of_mem _ (ih p (by simp [hr, hp]) c hc)

theorem splitSlash_append (p l : List Char) (h : '/' ∉ p) :
    splitSlash (p ++ l)
      = (p ++ (splitSlash l).headD []) :: (splitSlash l).tail := by
  induction p with
  | nil =>
    cases hl : splitSlash l with
    | nil => exact absurd hl (splitSlash_ne_nil l)
    | cons q qs => simp [hl]
  | cons a p ih =>
    have ha : a ≠ '/' := fun hc => h (by simp [hc])
    have hp : '/' ∉ p := fun hc => h (by simp [hc])
    rw [List.cons_append]
    rw [show splitSlash (a :: (p ++ l))
        = if a = '/' then [] :: splitSlash (p ++ l)
          else (a :: (splitSlash (p ++ l)).headD [])
            :: (splitSlash (p ++ l)).tail from rfl]
    rw [if_neg ha, ih hp]
    simp

theorem pathParts_join (ps : List (List Char))
    (h : ∀ p ∈ ps, p ≠ [] ∧ '/' ∉ p) :
    pathParts (joinParts ps) = ps := by
  induction ps with
  | nil => rfl
  | cons p ps ih =>
    cases ps with
    | nil =>
      have hp := h p (by simp)
      have hs := splitSlash_append p [] hp.2
      simp [splitSlash] at hs
      show pathParts (joinParts [p]) = [p]
      unfold joinParts pathParts
      rw [hs]
      simp [hp.1]
    | cons q qs =>
      have hp := h p (by simp)
      have hrest : ∀ x ∈ q :: qs, x ≠ [] ∧ '/' ∉ x :=
        fun x hx => h x (by simp [hx])
      show pathParts (joinParts (p :: q :: qs)) = p :: q :: qs
      have hjoin : joinParts (p :: q :: qs)
          = p ++ '/' :: joinParts (q :: qs) := rfl
      rw [hjoin]
      unfold pathParts
      rw [splitSlash_append p _ hp.2]
      have hsp : splitSlash ('/' :: joinParts (q :: qs))
          = [] :: splitSlash (joinParts (q :: qs)) := by
        simp [splitSlash]
      rw [hsp]
      simp only [List.headD_cons, List.tail_cons, List.append_nil]
      rw [List.filter_cons_of_pos (by simp [hp.1])]
      have := ih hrest
      unfold pathParts at this
      rw [this]

theorem collapseUndGo_sub (b : Bool) (l : List Char) :
    ∀ c ∈ collapseUndGo b l, c ∈ l := by
  induction l generalizing b with
  | nil => intro c hc; simp [collapseUndGo] at hc
  | cons a r ih =>
    intro c hc
    unfold collapseUndGo at hc
    by_cases ha : a = '_'
    · subst ha
      by_cases hb : b = true
      · subst hb
        simp at hc
        exact List.mem_cons_of_mem _ (ih true c hc)
      · rw [Bool.not_eq_true] at hb
        subst hb
        simp at hc
        rcases hc with hc | hc
        · simp [hc]
        · exact List.mem_cons_of_mem _ (ih true c hc)
    · simp [ha] at hc
      rcases hc with hc | hc
      · simp [hc]
      · exact List.mem_cons_of_mem _ (ih false c hc)

theorem mem_replaceBad (l : List Char) (c : Char) (h : c ∈ replaceBad l) :
    c = '_' ∨ c ∈ l := by
  unfold replaceBad at h
  rw [List.mem_map] at h
  rcases h with ⟨a, ha, hc⟩
  by_cases hb : badChar a
  · simp [hb] at hc
    exact Or.inl hc.symm
  · simp [hb] at hc
    subst hc
    simp [ha]

theorem replaceBad_good (l : List Char) :
    ∀ c ∈ replaceBad l, badChar c = false := by
  intro c h
  unfold replaceBad at h
  rw [List.mem_map] at h
  rcases h with ⟨a, _, hc⟩
  by_cases hb : badChar a
  · simp [hb] at hc
    subst hc
    decide
  · simp [hb] at hc
    subst hc
    simpa using hb

theorem sanitizeComponent_good (l : List Char) :
    ∀ c ∈ sanitizeComponent l, badChar c = false := by
  intro c h
  exact replaceBad_good l c (collapseUndGo_sub false (replaceBad l) c h)

theorem sanitizeComponent_ne_nil (l : List Char) (h : l ≠ []) :
    sanitizeComponent l ≠ [] := by
  unfold sanitizeComponent collapseUnd
  cases l with
  | nil => exact absurd rfl h
  | cons a r =>
    show collapseUndGo false (replaceBad (a :: r)) ≠ []
    unfold replaceBad
    simp only [List.map_cons]
    unfold collapseUndGo
    by_cases hb : badChar a <;> by_cases ha : a = '_' <;> simp [hb, ha]

theorem replaceBad_fixed (l : List Char) (h : ∀ c ∈ l, badChar c = false) :
    replaceBad l = l := by
  induction l with
  | nil => rfl
  | cons a r ih =>
    unfold replaceBad
    simp only [List.map_cons]
    rw [if_neg (by simp [h a (by simp)])]
    have := ih (fun c hc => h c (by simp [hc]))
    unfold replaceBad at this
    rw [this]

theorem collapseUndGo_idem (l : List Char) :
    ∀ b, collapseUndGo b (collapseUndGo b l) = collapseUndGo b l := by
  induction l with
  | nil => intro b; rfl
  | cons a r ih =>
    intro b
    by_cases ha : a = '_'
    · subst ha
      cases b with
      | true => simpa [collapseUndGo] using ih true
      | false => simp [collapseUndGo, ih true]
    · cases b with
      | true => simp [collapseUndGo, ha, ih false]
      | false => simp [collapseUndGo, ha, ih false]

theorem sanitizeComponent_idem (l : List Char) :
    sanitizeComponent (sanitizeComponent l) = sanitizeComponent l := by
  unfold sanitizeComponent collapseUnd
  rw [replaceBad_fixed _ (fun c hc =>
    replaceBad_good l c (collapseUndGo_sub false _ c hc))]
  exact collapseUndGo_idem _ false

theorem mem_joinParts (ps : List (List Char)) (c : Char)
    (h : c ∈ joinParts ps) : (∃ p ∈ ps, c ∈ p) ∨ c = '/' := by
  induction ps with
  | nil => simp [joinParts] at h
  | cons p ps ih =>
    cases ps with
    | nil =>
      simp [joinParts] at h
      exact Or.inl ⟨p, by simp, h⟩
    | cons q qs =>
      rw [show joinParts (p :: q :: qs)
          = p ++ '/' :: joinParts (q :: qs) from rfl] at h
      rcases List.mem_append.mp h with h | h
      · exact Or.inl ⟨p, by simp, h⟩
      · rcases List.mem_cons.mp h with h | h
        · exact Or.inr h
        · rcases ih h with ⟨x, hx, hc⟩ | h
          · exact Or.inl ⟨x, List.mem_cons_of_mem _ hx, hc⟩
          · exact Or.inr h

theorem mem_pathParts (l : List Char) (p : List Char)
    (h : p ∈ pathParts l) : p ≠ [] ∧ '/' ∉ p ∧ ∀ c ∈ p, c ∈ l := by
  unfold pathParts at h
  rw [List.mem_filter] at h
  refine ⟨by simpa using h.2, mem_splitSlash_no_slash l p h.1,
    mem_splitSlash_sub l p h.1⟩

theorem sanitizeComponent_no_slash (l : List Char) :
    '/' ∉ sanitizeComponent l := by
  intro h
  have := sanitizeComponent_good l '/' h
  simp [badChar] at this

theorem pathParts_makeSafe (l : List Char) (c0 : List Char)
    (rest : List (List Char))
    (hp : pathParts (stripAccentsList l) = c0 :: rest) :
    pathParts (makeSafeNameList l) = c0 :: rest.map sanitizeComponent := by
  have hms : makeSafeNameList l
      = joinParts (c0 :: rest.map sanitizeComponent) := by
    unfold makeSafeNameList
    rw [hp]
  rw [hms]
  apply pathParts_join
  intro p hmem
  rcases List.mem_cons.mp hmem with h | h
  · subst h
    have := mem_pathParts _ _ (hp ▸ List.mem_cons_self _ _)
    exact ⟨this.1, this.2.1⟩
  · rw [List.mem_map] at h
    rcases h with ⟨q, hq, hpq⟩
    subst hpq
    have hq2 := mem_pathParts _ _ (hp ▸ List.mem_cons_of_mem c0 hq)
    exact ⟨sanitizeComponent_ne_nil q hq2.1, sanitizeComponent_no_slash q⟩

theorem makeSafe_chars (l : List Char) :
    ∀ c ∈ makeSafeNameList l, nfkdChar c = [c] ∧ combiningChar c = false := by
  intro c hmem
  unfold makeSafeNameList at hmem
  cases hp : pathParts (stripAccentsList l) with
  | nil =>
    rw [hp] at hmem
    simp at hmem
  | cons c0 rest =>
    rw [hp] at hmem
    rcases mem_joinParts _ c hmem with ⟨p, hpmem, hcp⟩ | hsl
    · rcases List.mem_cons.mp hpmem with h | h
      · subst h
        have hsub := mem_pathParts _ _ (hp ▸ List.mem_cons_self p rest)
        exact stripAccents_chars l c (hsub.2.2 c hcp)
      · rw [List.mem_map] at h
        rcases h with ⟨q, hq, hpq⟩
        subst hpq
        have hqsub := mem_pathParts _ _ (hp ▸ List.mem_cons_of_mem c0 hq)
        have h1 : c ∈ replaceBad q :=
          collapseUndGo_sub false (replaceBad q) c hcp
        rcases mem_replaceBad q c h1 with h2 | h2
        · subst h2
          exact ⟨by decide, by decide⟩
        · exact stripAccents_chars l c (hqsub.2.2 c h2)
    · subst hsl
      exact ⟨by decide, by decide⟩

theorem stripAccents_makeSafe (l : List Char) :
    stripAccentsList (makeSafeNameList l) = makeSafeNameList l :=
  stripAccents_fixed _ (makeSafe_chars l)

theorem makeSafeNameList_idem (l : List Char) :
    makeSafeNameList (makeSafeNameList l) = makeSafeNameList l := by
  cases hp : pathParts (stripAccentsList l) with
  | nil =>
    have h1 : makeSafeNameList l = [] := by
      unfold makeSafeNameList
      rw [hp]
    rw [h1]
    rfl
  | cons c0 rest =>
    have h1 : makeSafeNameList l
        = joinParts (c0 :: rest.map sanitizeComponent) := by
      unfold makeSafeNameList
      rw [hp]
    have h2 := pathParts_makeSafe l c0 rest hp
    have h3 := stripAccents_makeSafe l
    generalize hm : makeSafeNameList l = m at h1 h2 h3 ⊢
    unfold makeSafeNameList
    rw [h3, h2]
    show joinParts (c0 :: (rest.map sanitizeComponent).map sanitizeComponent)
        = m
    rw [List.map_map]
    have h4 : rest.map (sanitizeComponent ∘ sanitizeComponent)
        = rest.map sanitizeComponent :=
      List.map_congr_left (fun q _ => by
        simp only [Function.comp_apply]
        exact sanitizeComponent_idem q)
    rw [h4]
    exact h1.symm

/-- Runs of two or more underscores are absent. -/
def noDoubleUndB : List Char → Bool
  | a :: b :: rest => !(decide (a = '_' ∧ b = '_')) && noDoubleUndB (b :: rest)
  | _ => true

theorem noDoubleUndB_cons_cons (a b : Char) (l : List Char) :
    noDoubleUndB (a :: b :: l)
      = (!(decide (a = '_' ∧ b = '_')) && noDoubleUndB (b :: l)) := rfl

theorem collapseUndGo_noDouble (l : List Char) :
    noDoubleUndB (collapseUndGo false l) = true
    ∧ noDoubleUndB (collapseUndGo true l) = true
    ∧ ∀ x xs, collapseUndGo true l = x :: xs → x ≠ '_' := by
  induction l with
  | nil =>
    refine ⟨rfl, rfl, ?_⟩
    intro x xs h
    simp [collapseUndGo] at h
  | cons a r ih =>
    obtain ⟨ihf, iht, ihh⟩ := ih
    by_cases ha : a = '_'
    · subst ha
      have hf : collapseUndGo false ('_' :: r) = '_' :: collapseUndGo true r
          := by simp [collapseUndGo]
      have ht : collapseUndGo true ('_' :: r) = collapseUndGo true r := by
        simp [collapseUndGo]
      refine ⟨?_, ?_, ?_⟩
      · rw [hf]
        cases hc : collapseUndGo true r with
        | nil => rfl
        | cons x xs =>
          have hx := ihh x xs hc
          rw [hc] at iht
          rw [noDoubleUndB_cons_cons]
          simp [hx, iht]
      · rw [ht]
        exact iht
      · intro x xs h
        rw [ht] at h
        exact ihh x xs h
    · have hf : collapseUndGo false (a :: r) = a :: collapseUndGo false r
          := by simp [collapseUndGo, ha]
      have ht : collapseUndGo true (a :: r) = a :: collapseUndGo false r
          := by simp [collapseUndGo, ha]
      have hstep : noDoubleUndB (a :: collapseUndGo false r) = true := by
        cases hc : collapseUndGo false r with
        | nil => rfl
        | cons x xs =>
          rw [hc] at ihf
          rw [noDoubleUndB_cons_cons]
          simp [ha, ihf]
      refine ⟨?_, ?_, ?_⟩
      · rw [hf]
        exact hstep
      · rw [ht]
        exact hstep
      · intro x xs h
        rw [ht] at h
        rw [List.cons.injEq] at h
        rw [← h.1]
        exact ha

theorem sanitizeComponent_noDouble (l : List Char) :
    noDoubleUndB (sanitizeComponent l) = true :=
  (collapseUndGo_noDouble (replaceBad l)).1

/-! ## C8: the sanitizer is idempotent -/

/-- C8: `_make_safe_name` is idempotent: applying the path sanitizer twice
yields the same result as applying it once, for every input path. -/
theorem claim_C8_make_safe_name_idempotent (x : String) :
    makeSafeName (makeSafeName x) = makeSafeName x := by
  unfold makeSafeName
  congr 1
  exact makeSafeNameList_idem x.data

/-! ## C3: what the sanitizer does to the components of the relative path

The code's `_make_safe_name` receives the rendered path *relative to the
destination root* and skips the character replacement for the component at
index 0 of that relative path — the destination root itself is never part
of its input.  The claim that every component except the destination root
is sanitized fails on the first relative component (see the
counterexample); the amended statement below records what holds. -/

/-- C3 counterexample: on the relative path `a<b/c<d` — whose two
components are both below the destination root — the code sanitizes only
the second component, leaving `<` in the first, while the claimed
behaviour (every non-root component sanitized, `specMakeSafeName`) would
replace both. -/
theorem claim_C3_counterexample :
    makeSafeName "a<b/c<d" = "a<b/c_d"
    ∧ specMakeSafeName "a<b/c<d" = "a_b/c_d"
    ∧ makeSafeName "a<b/c<d" ≠ specMakeSafeName "a<b/c<d" := by
  refine ⟨?_, ?_, ?_⟩ <;> decide

/-- C3 (amended): the sanitizer Unicode-decomposes the whole relative path
and strips all combining marks; it replaces every character of the
`< > : " / \ | ? *` class (plus the U+00FF–U+FFFF range) with `_` and
collapses underscore runs in every component of the relative path
*except the first*; the first relative component is altered only by the
accent stripping, and the destination root is not part of the sanitizer's
input at all. -/
theorem claim_C3_sanitizer_on_components (s : String) :
    (∀ c ∈ (makeSafeName s).data, combiningChar c = false)
    ∧ (pathParts (makeSafeName s).data).headD []
        = (pathParts (stripAccentsList s.data)).headD []
    ∧ (pathParts (makeSafeName s).data).length
        = (pathParts (stripAccentsList s.data)).length
    ∧ ∀ p ∈ (pathParts (makeSafeName s).data).tail,
        (∀ c ∈ p, badChar c = false) ∧ noDoubleUndB p = true := by
  have hdata : (makeSafeName s).data = makeSafeNameList s.data := rfl
  rw [hdata]
  cases hp : pathParts (stripAccentsList s.data) with
  | nil =>
    have h1 : makeSafeNameList s.data = [] := by
      unfold makeSafeNameList
      rw [hp]
    rw [h1]
    refine ⟨by simp, ?_, ?_, ?_⟩ <;> simp [pathParts, splitSlash]
  | cons c0 rest =>
    have h2 := pathParts_makeSafe s.data c0 rest hp
    refine ⟨?_, ?_, ?_, ?_⟩
    · intro c hc
      exact (makeSafe_chars s.data c hc).2
    · rw [h2]
      simp
    · rw [h2]
      simp
    · rw [h2]
      intro p hpmem
      simp only [List.tail_cons] at hpmem
      rw [List.mem_map] at hpmem
      rcases hpmem with ⟨q, _, hq⟩
      subst hq
      exact ⟨sanitizeComponent_good q, sanitizeComponent_noDouble q⟩

/-! ## Facts about the filesystem model -/

theorem find?_filter_ne (l : List (String × String)) (p q : String)
    (h : q ≠ p) :
    (l.filter (fun pv => !(pv.1 = p : Bool))).find? (fun pv => (pv.1 = q : Bool))
      = l.find? (fun pv => (pv.1 = q : Bool)) := by
  induction l with
  | nil => rfl
  | cons a r ih =>
    by_cases ha : a.1 = p
    · rw [List.filter_cons_of_neg (by simp [ha])]
      rw [ih]
      have : ¬(a.1 = q) := fun hc => h (by rw [← hc, ha])
      rw [List.find?_cons_of_neg _ (by simp [this])]
    · rw [List.filter_cons_of_pos (by simp [ha])]
      by_cases hq : a.1 = q
      · rw [List.find?_cons_of_pos _ (by simp [hq]),
          List.find?_cons_of_pos _ (by simp [hq])]
      · rw [List.find?_cons_of_neg _ (by simp [hq]),
          List.find?_cons_of_neg _ (by simp [hq])]
        exact ih

theorem FS.read_write_self (fs : FS) (p v : String) :
    (fs.write p v).read p = some v := by
  unfold FS.write FS.read
  simp [List.find?_cons_of_pos]

theorem FS.read_write_ne (fs : FS) (p v q : String) (h : q ≠ p) :
    (fs.write p v).read q = fs.read q := by
  unfold FS.write FS.read
  simp only []
  rw [List.find?_cons_of_neg _ (by simp; exact fun hc => h hc.symm)]
  rw [find?_filter_ne fs.files p q h]

theorem FS.read_removeFile_ne (fs : FS) (p q : String) (h : q ≠ p) :
    (fs.removeFile p).read q = fs.read q := by
  unfold FS.removeFile FS.read
  simp only []
  rw [find?_filter_ne fs.files p q h]

theorem FS.read_makedirs (fs : FS) (d p : String) :
    (fs.makedirs d).read p = fs.read p := by
  unfold FS.makedirs FS.read
  split <;> rfl

theorem FS.existsPath_of_read (fs : FS) (p v : String)
    (h : fs.read p = some v) : fs.existsPath p = true := by
  unfold FS.read at h
  unfold FS.existsPath
  cases hf : fs.files.find? (fun pv => (pv.1 = p : Bool)) with
  | none => rw [hf] at h; simp at h
  | some pv =>
    have hmem := List.mem_of_find?_eq_some hf
    have hp := List.find?_some hf
    simp only [decide_eq_true_eq] at hp
    have : fs.files.any (fun pv => (pv.1 = p : Bool)) = true := by
      rw [List.any_eq_true]
      exact ⟨pv, hmem, by simp [hp]⟩
    simp [this]

theorem removeEmptyDirsGo_files (n : Nat) (fs : FS) (log : List LogLine) :
    (removeEmptyDirsGo n fs log).1.files = fs.files := by
  induction n generalizing fs log with
  | zero => rfl
  | succ m ih =>
    unfold removeEmptyDirsGo
    cases fs.dirs.find? (fun d => dirEmpty fs d) with
    | none => rfl
    | some d => rw [ih]

theorem stepEntry_preserves_read (fs : FS) (e : Entry) (fs' : FS)
    (l : List LogLine) (p v : String)
    (h : stepEntry fs e = some (fs', l))
    (hd : e.tag = Tag.DELETE → e.filename ≠ p)
    (hv : fs.read p = some v) : fs'.read p = some v := by
  unfold stepEntry at h
  by_cases hskip : e.export_path = "" ∧ e.tag = Tag.BLANK
  · rw [if_pos hskip] at h
    simp at h
    rw [← h.1]
    exact hv
  · rw [if_neg hskip] at h
    cases htag : e.tag with
    | BLANK =>
      rw [htag] at h
      by_cases hex : fs.existsPath e.export_path
      · rw [if_pos hex] at h
        simp at h
        rw [← h.1]
        exact hv
      · rw [if_neg hex] at h
        cases hr : fs.read e.filename with
        | none => rw [hr] at h; simp at h
        | some w =>
          rw [hr] at h
          simp at h
          rw [← h.1]
          have hne : p ≠ e.export_path := by
            intro hc
            rw [← hc] at hex
            exact hex (FS.existsPath_of_read fs p v hv)
          rw [FS.read_write_ne _ _ _ _ hne, FS.read_makedirs]
          exact hv
    | DUPLICATE =>
      rw [htag] at h
      simp at h
      rw [← h.1]
      exact hv
    | DELETE =>
      rw [htag] at h
      have hne : p ≠ e.filename := fun hc => (hd htag) hc.symm
      by_cases hex : fs.files.any (fun pv => (pv.1 = e.filename : Bool))
      · rw [if_pos hex] at h
        simp at h
        rw [← h.1]
        rw [FS.read_removeFile_ne _ _ _ hne]
        exact hv
      · rw [if_neg hex] at h
        by_cases hdir : fs.dirs.contains e.filename = true
        · rw [if_pos hdir] at h
          simp at h
          rw [← h.1]
          exact hv
        · rw [if_neg hdir] at h
          simp at h
          rw [← h.1]
          exact hv

theorem runSyncGo_preserves_read (entries : List Entry) (k : Nat)
    (flags : Nat → Bool) (fs : FS) (log : List LogLine) (p v : String)
    (hd : ∀ e ∈ entries, e.tag = Tag.DELETE → e.filename ≠ p)
    (hv : fs.read p = some v) :
    ∀ r, runSyncGo entries k flags fs log = some r → r.1.read p = some v := by
  induction entries generalizing k fs log with
  | nil =>
    intro r hr
    unfold runSyncGo at hr
    simp at hr
    rw [← hr]
    show (removeEmptyDirs fs).1.read p = some v
    unfold FS.read removeEmptyDirs
    rw [removeEmptyDirsGo_files]
    exact hv
  | cons e rest ih =>
    intro r hr
    unfold runSyncGo at hr
    by_cases hf : flags k = false
    · rw [if_pos hf] at hr
      simp at hr
      rw [← hr]
      exact hv
    · rw [if_neg hf] at hr
      cases hs : stepEntry fs e with
      | none => rw [hs] at hr; simp at hr
      | some res =>
        rw [hs] at hr
        simp at hr
        have hstep := stepEntry_preserves_read fs e res.1 res.2 p v hs
          (hd e (by simp)) hv
        exact ih (k + 1) res.1 (log ++ res.2)
          (fun e' he' => hd e' (by simp [he'])) hstep r hr

theorem FS.mem_dirs_makedirs (fs : FS) (d : String) :
    d ∈ (fs.makedirs d).dirs := by
  unfold FS.makedirs
  by_cases h : fs.dirs.contains d = true
  · rw [if_pos h]
    exact List.mem_of_elem_eq_true h
  · rw [if_neg h]
    exact List.mem_cons_self _ _

/-! ## C4: existing destination files are never overwritten -/

/-- C4: for a `Copy` (untagged, nonempty-path) entry the executor, when the
destination already exists (as file or directory), logs the skip-existing
line and leaves the filesystem untouched; when it does not exist, it
creates the parent directory, copies the source bytes to the destination
and changes no other file.  Moreover a whole run never changes the content
of a pre-existing file that no delete entry names: it is still present
with the same bytes afterwards. -/
theorem claim_C4_copy_never_overwrites (fs : FS) (e : Entry)
    (entries : List Entry) (flags : Nat → Bool) (fs0 : FS) (p v : String)
    (he : e.tag = Tag.BLANK) (hp : e.export_path ≠ "")
    (hv : fs0.read p = some v)
    (hD : ∀ e' ∈ entries, e'.tag = Tag.DELETE → e'.filename ≠ p) :
    (fs.existsPath e.export_path = true →
      stepEntry fs e = some (fs, [LogLine.statusExists e.export_path]))
    ∧ (fs.existsPath e.export_path = false →
        ∀ w, fs.read e.filename = some w →
          ∃ fs', stepEntry fs e
              = some (fs', [LogLine.statusCopy e.export_path])
            ∧ fs'.read e.export_path = some w
            ∧ (∀ q, q ≠ e.export_path → fs'.read q = fs.read q)
            ∧ dirname e.export_path ∈ fs'.dirs)
    ∧ (∀ r, runSync entries flags fs0 = some r → r.1.read p = some v) := by
  refine ⟨?_, ?_, ?_⟩
  · intro hex
    obtain ⟨fn, path, tag⟩ := e
    cases tag with
    | BLANK => simp [stepEntry, hex, hp]
    | DUPLICATE => simp at he
    | DELETE => simp at he
  · intro hex w hw
    obtain ⟨fn, path, tag⟩ := e
    cases tag with
    | BLANK =>
      refine ⟨(fs.makedirs (dirname path)).write path w, ?_, ?_, ?_, ?_⟩
      · simp only [stepEntry] at hw ⊢
        simp [hex, hp, hw]
      · exact FS.read_write_self _ _ _
      · intro q hq
        rw [FS.read_write_ne _ _ _ _ hq, FS.read_makedirs]
      · exact FS.mem_dirs_makedirs fs (dirname path)
    | DUPLICATE => simp at he
    | DELETE => simp at he
  · intro r hr
    exact runSyncGo_preserves_read entries 0 flags fs0 [] p v hD hv r hr

/-- A concrete two-file filesystem for the C4 witness: the destination
file `/d/a` already exists with bytes `OLD` and the source holds `NEW`. -/
def c4fs : FS := ⟨[("/d/a", "OLD"), ("/src/s1", "NEW")], []⟩

/-- The C4 witness copy entry. -/
def c4entry : Entry := ⟨"/src/s1", "/d/a", Tag.BLANK⟩

/-- Witness for C4: with `/d/a` already present, the executor logs the
skip-existing line and the pre-existing bytes survive the whole run. -/
theorem claim_C4_copy_never_overwrites_witness :
    c4entry.tag = Tag.BLANK ∧ c4entry.export_path ≠ ""
    ∧ c4fs.read "/d/a" = some "OLD"
    ∧ (∀ e' ∈ [c4entry], e'.tag = Tag.DELETE → e'.filename ≠ "/d/a")
    ∧ stepEntry c4fs c4entry = some (c4fs, [LogLine.statusExists "/d/a"])
    ∧ ((runSync [c4entry] (fun _ => true) c4fs).getD
        (c4fs, [], true)).1.read "/d/a" = some "OLD" :=
  ⟨by decide, by decide, by decide, by decide,
    (claim_C4_copy_never_overwrites c4fs c4entry [c4entry] (fun _ => true)
      c4fs "/d/a" "OLD" (by decide) (by decide) (by decide) (by decide)).1
      (by decide),
    (claim_C4_copy_never_overwrites c4fs c4entry [c4entry] (fun _ => true)
      c4fs "/d/a" "OLD" (by decide) (by decide) (by decide) (by decide)).2.2
      ((runSync [c4entry] (fun _ => true) c4fs).getD (c4fs, [], true))
      (by decide)⟩

/-! ## C5: cooperative cancellation stops all filesystem activity -/

theorem runSyncGo_cancel (entries : List Entry) (i k : Nat)
    (flags : Nat → Bool) (fs fsi : FS) (li log : List LogLine)
    (hi : i < entries.length)
    (htrue : ∀ j, j < i → flags (k + j) = true)
    (hfalse : flags (k + i) = false)
    (hfold : foldSteps (entries.take i) fs = some (fsi, li)) :
    runSyncGo entries k flags fs log
      = some (fsi, (log ++ li) ++ [LogLine.stoppedSync], false) := by
  induction entries generalizing i k fs li log with
  | nil => simp at hi
  | cons e rest ih =>
    cases i with
    | zero =>
      simp [foldSteps] at hfold
      have h0 : flags k = false := by simpa using hfalse
      unfold runSyncGo
      rw [if_pos h0]
      rw [hfold.1, hfold.2]
      simp
    | succ n =>
      have hflag : flags k = true := by simpa using htrue 0 (Nat.succ_pos n)
      unfold runSyncGo
      rw [if_neg (by simp [hflag])]
      rw [List.take_succ_cons] at hfold
      unfold foldSteps at hfold
      cases hs : stepEntry fs e with
      | none =>
        rw [hs] at hfold
        simp at hfold
      | some res =>
        obtain ⟨fs1, l1⟩ := res
        rw [hs] at hfold
        simp only [Option.some.injEq] at hfold ⊢
        cases hf2 : foldSteps (rest.take n) fs1 with
        | none =>
          rw [hf2] at hfold
          simp at hfold
        | some res2 =>
          obtain ⟨fs2, l2⟩ := res2
          rw [hf2] at hfold
          simp at hfold
          have harith : ∀ j, j < n → flags (k + 1 + j) = true := by
            intro j hj
            have h1 : k + 1 + j = k + (j + 1) := by omega
            rw [h1]
            exact htrue (j + 1) (by omega)
          have hfl : flags (k + 1 + n) = false := by
            have h1 : k + 1 + n = k + (n + 1) := by omega
            rw [h1]
            exact hfalse
          rw [hfold.1] at hf2
          have hih := ih n (k + 1) fs1 l2 (log ++ l1) (by simpa using hi)
            harith hfl hf2
          show runSyncGo rest (k + 1) flags fs1 (log ++ l1)
              = some (fsi, (log ++ li) ++ [LogLine.stoppedSync], false)
          rw [hih, ← hfold.2]
          simp

/-- C5: when the running flag reads `true` for the first `i` loop
iterations and `false` at the check preceding entry `i`, the executor
performs exactly the actions of the first `i` entries, then emits the
stopped log line and returns failure: no further copy or delete happens
and the empty-directory cleanup phase never runs (the final filesystem is
exactly the fold of the first `i` entries). -/
theorem claim_C5_cancellation_stops_executor (entries : List Entry)
    (flags : Nat → Bool) (fs fsi : FS) (li : List LogLine) (i : Nat)
    (hi : i < entries.length)
    (htrue : ∀ j, j < i → flags j = true)
    (hfalse : flags i = false)
    (hfold : foldSteps (entries.take i) fs = some (fsi, li)) :
    runSync entries flags fs
      = some (fsi, li ++ [LogLine.stoppedSync], false) := by
  have := runSyncGo_cancel entries i 0 flags fs fsi li []
    hi (by simpa using htrue) (by simpa using hfalse) hfold
  simpa using this

/-- The five copy entries of the C5 witness scenario. -/
def c5entries : List Entry :=
  [⟨"/s/1", "/d/x1", Tag.BLANK⟩, ⟨"/s/2", "/d/x2", Tag.BLANK⟩,
   ⟨"/s/3", "/d/x3", Tag.BLANK⟩, ⟨"/s/4", "/d/x4", Tag.BLANK⟩,
   ⟨"/s/5", "/d/x5", Tag.BLANK⟩]

/-- The initial filesystem of the C5 witness scenario: the five source
files exist, no destination file does. -/
def c5fs : FS :=
  ⟨[("/s/1", "B1"), ("/s/2", "B2"), ("/s/3", "B3"), ("/s/4", "B4"),
    ("/s/5", "B5")], []⟩

/-- Witness for C5: cancelled after 2 of 5 copy entries, the run stops
with the stopped log line, exactly two destination files were written
(two more files than initially), and no cleanup ran. -/
theorem claim_C5_cancellation_stops_executor_witness :
    2 < c5entries.length ∧ (∀ j, j < 2 → (fun k => decide (k < 2)) j = true)
    ∧ (fun k => decide (k < 2)) 2 = false
    ∧ runSync c5entries (fun k => decide (k < 2)) c5fs
        = some ((foldSteps (c5entries.take 2) c5fs).getD (c5fs, [])
            |>.1,
          ((foldSteps (c5entries.take 2) c5fs).getD (c5fs, [])).2
            ++ [LogLine.stoppedSync], false)
    ∧ ((foldSteps (c5entries.take 2) c5fs).getD (c5fs, [])).1.files.length
        = c5fs.files.length + 2 :=
  ⟨by decide, by decide, by decide,
    claim_C5_cancellation_stops_executor c5entries (fun k => decide (k < 2))
      c5fs ((foldSteps (c5entries.take 2) c5fs).getD (c5fs, [])).1
      ((foldSteps (c5entries.take 2) c5fs).getD (c5fs, [])).2 2
      (by decide) (by decide) (by decide) (by decide),
    by decide⟩

/-! ## C7: duplicate and skip entries in the executor -/

/-- C7 counterexample: for a Skip entry (empty path, no tag) the executor
writes *no* log line at all — the loop `continue`s before logging — while
the claim asserts a log line is written for the entry. -/
theorem claim_C7_counterexample :
    stepEntry ⟨[], []⟩ ⟨"/s/1", "", Tag.BLANK⟩ = some (⟨[], []⟩, [])
    ∧ runSync [⟨"/s/1", "", Tag.BLANK⟩] (fun _ => true) ⟨[], []⟩
        = some (⟨[], []⟩, [], true) := by
  refine ⟨?_, ?_⟩ <;> decide

theorem runSyncGo_dupskip_files (entries : List Entry) (k : Nat)
    (flags : Nat → Bool) (fs : FS) (log : List LogLine)
    (hall : ∀ e ∈ entries,
      e.tag = Tag.DUPLICATE ∨ (e.export_path = "" ∧ e.tag = Tag.BLANK)) :
    ∀ r, runSyncGo entries k flags fs log = some r → r.1.files = fs.files := by
  induction entries generalizing k fs log with
  | nil =>
    intro r hr
    unfold runSyncGo at hr
    simp at hr
    rw [← hr]
    show (removeEmptyDirs fs).1.files = fs.files
    unfold removeEmptyDirs
    exact removeEmptyDirsGo_files _ _ _
  | cons e rest ih =>
    intro r hr
    unfold runSyncGo at hr
    by_cases hf : flags k = false
    · rw [if_pos hf] at hr
      simp at hr
      rw [← hr]
    · rw [if_neg hf] at hr
      have hstep : ∃ l, stepEntry fs e = some (fs, l) := by
        rcases hall e (by simp) with h | h
        · obtain ⟨fn, path, tag⟩ := e
          cases tag with
          | DUPLICATE =>
            exact ⟨[LogLine.duplicateSkip path], by simp [stepEntry]⟩
          | BLANK => simp at h
          | DELETE => simp at h
        · obtain ⟨fn, path, tag⟩ := e
          cases tag with
          | BLANK =>
            have hpath : path = "" := h.1
            rw [hpath]
            exact ⟨[], by simp [stepEntry]⟩
          | DUPLICATE => simp at h
          | DELETE => simp at h
      rcases hstep with ⟨l, hl⟩
      rw [hl] at hr
      simp at hr
      exact ih (k + 1) fs (log ++ l)
        (fun e' he' => hall e' (by simp [he'])) r hr

/-- C7 (amended): a `Duplicate` entry gets exactly one log line and no
filesystem action; a Skip entry (empty path, no tag) gets no filesystem
action and *no* log line (the executor passes over it silently); a run
over a plan consisting only of such entries leaves every file untouched. -/
theorem claim_C7_duplicate_and_skip_no_fs_action (fs : FS) (e s : Entry)
    (entries : List Entry) (flags : Nat → Bool) (fs0 : FS)
    (hdup : e.tag = Tag.DUPLICATE)
    (hskip : s.export_path = "" ∧ s.tag = Tag.BLANK)
    (hall : ∀ e' ∈ entries,
      e'.tag = Tag.DUPLICATE ∨ (e'.export_path = "" ∧ e'.tag = Tag.BLANK)) :
    stepEntry fs e = some (fs, [LogLine.duplicateSkip e.export_path])
    ∧ stepEntry fs s = some (fs, [])
    ∧ ∀ r, runSync entries flags fs0 = some r → r.1.files = fs0.files := by
  refine ⟨?_, ?_, ?_⟩
  · obtain ⟨fn, path, tag⟩ := e
    cases tag with
    | DUPLICATE => simp [stepEntry]
    | BLANK => simp at hdup
    | DELETE => simp at hdup
  · obtain ⟨fn, path, tag⟩ := s
    cases tag with
    | BLANK =>
      simp only [] at hskip
      rw [hskip.1]
      simp [stepEntry]
    | DUPLICATE => simp at hskip
    | DELETE => simp at hskip
  · exact runSyncGo_dupskip_files entries 0 flags fs0 [] hall

/-- Witness for C7 at a concrete duplicate entry and skip entry. -/
theorem claim_C7_duplicate_and_skip_no_fs_action_witness :
    (⟨"/s/2", "/d/a", Tag.DUPLICATE⟩ : Entry).tag = Tag.DUPLICATE
    ∧ ((⟨"/s/3", "", Tag.BLANK⟩ : Entry).export_path = ""
        ∧ (⟨"/s/3", "", Tag.BLANK⟩ : Entry).tag = Tag.BLANK)
    ∧ stepEntry c4fs ⟨"/s/2", "/d/a", Tag.DUPLICATE⟩
        = some (c4fs, [LogLine.duplicateSkip "/d/a"])
    ∧ stepEntry c4fs ⟨"/s/3", "", Tag.BLANK⟩ = some (c4fs, [])
    ∧ ∀ r, runSync [⟨"/s/2", "/d/a", Tag.DUPLICATE⟩,
        ⟨"/s/3", "", Tag.BLANK⟩] (fun _ => true) c4fs = some r
        → r.1.files = c4fs.files :=
  ⟨by decide, by decide,
    (claim_C7_duplicate_and_skip_no_fs_action c4fs
      ⟨"/s/2", "/d/a", Tag.DUPLICATE⟩ ⟨"/s/3", "", Tag.BLANK⟩
      [⟨"/s/2", "/d/a", Tag.DUPLICATE⟩, ⟨"/s/3", "", Tag.BLANK⟩]
      (fun _ => true) c4fs (by decide) (by decide) (by decide)).1,
    (claim_C7_duplicate_and_skip_no_fs_action c4fs
      ⟨"/s/2", "/d/a", Tag.DUPLICATE⟩ ⟨"/s/3", "", Tag.BLANK⟩
      [⟨"/s/2", "/d/a", Tag.DUPLICATE⟩, ⟨"/s/3", "", Tag.BLANK⟩]
      (fun _ => true) c4fs (by decide) (by decide) (by decide)).2.1,
    (claim_C7_duplicate_and_skip_no_fs_action c4fs
      ⟨"/s/2", "/d/a", Tag.DUPLICATE⟩ ⟨"/s/3", "", Tag.BLANK⟩
      [⟨"/s/2", "/d/a", Tag.DUPLICATE⟩, ⟨"/s/3", "", Tag.BLANK⟩]
      (fun _ => true) c4fs (by decide) (by decide) (by decide)).2.2⟩

/-! ## Basic facts about the display text -/

/-! ## C1: classification of the planning pass -/

/-- An entry counted by the copy counter: no tag and a nonempty export
path. -/
def entryCopyCounted (e : Entry) : Bool :=
  decide (e.tag = Tag.BLANK ∧ e.export_path ≠ "")

theorem previewGo_spec (songs : List Song) (seen : List String)
    (es : List Entry) (c d : Int) (sn : List String)
    (h : previewGo songs seen = some (es, c, d, sn)) :
    es.length = songs.length
    ∧ (∀ i, i < songs.length →
        (es.getD i default).tag
          = (if ((songs.getD i default).export_path ∈ seen
              ∨ (songs.getD i default).export_path
                  ∈ (songs.take i).map Song.export_path)
            then Tag.DUPLICATE else Tag.BLANK)
        ∧ (es.getD i default).export_path = (songs.getD i default).export_path
        ∧ (es.getD i default).filename = (songs.getD i default).filename)
    ∧ (∀ p, p ∈ sn ↔ p ∈ seen ∨ p ∈ songs.map Song.export_path)
    ∧ ((es.countP entryCopyCounted : Int) = c
        ∧ (es.countP (fun e => (e.tag = Tag.BLANK : Bool)) : Int) = c
        ∧ (es.countP (fun e => (e.tag = Tag.DUPLICATE : Bool)) : Int) = d
        ∧ es.countP (fun e => (e.tag = Tag.DELETE : Bool)) = 0)
    ∧ c = (((songs.map Song.export_path).toFinset) \ seen.toFinset).card
    ∧ c + d = songs.length
    ∧ (∀ e ∈ es, e.export_path ≠ "") := by
  induction songs generalizing seen es c d sn with
  | nil =>
    unfold previewGo at h
    simp at h
    obtain ⟨h1, h2, h3, h4⟩ := h
    subst h1 h2 h3 h4
    refine ⟨rfl, ?_, by simp, by simp, by simp, by simp, by simp⟩
    intro i hi
    simp at hi
  | cons sg rest ih =>
    unfold previewGo at h
    by_cases hemp : sg.export_path = ""
    · rw [if_pos hemp] at h
      simp at h
    · rw [if_neg hemp] at h
      by_cases hmem : sg.export_path ∈ seen
      · rw [if_pos hmem] at h
        cases hrec : previewGo rest seen with
        | none => rw [hrec] at h; simp at h
        | some res =>
          obtain ⟨es', c', d', sn'⟩ := res
          rw [hrec] at h
          simp at h
          obtain ⟨hes, hc, hd, hsn⟩ := h
          obtain ⟨A, B, C, D, E, F, G⟩ := ih seen es' c' d' sn' hrec
          subst hes hsn
          refine ⟨by simp [A], ?_, ?_, ?_, ?_, ?_, ?_⟩
          · intro i hi
            cases i with
            | zero =>
              refine ⟨?_, by simp, by simp⟩
              simp only [List.getD_cons_zero]
              rw [if_pos (by simp [hmem])]
            | succ j =>
              have hj : j < rest.length := by simpa using hi
              obtain ⟨B1, B2, B3⟩ := B j hj
              refine ⟨?_, by simpa using B2, by simpa using B3⟩
              simp only [List.getD_cons_succ, List.take_succ_cons,
                List.map_cons]
              rw [B1]
              apply if_congr _ rfl rfl
              constructor
              · intro hx
                rcases hx with hx | hx
                · exact Or.inl hx
                · exact Or.inr (List.mem_cons_of_mem _ hx)
              · intro hx
                rcases hx with hx | hx
                · exact Or.inl hx
                · rcases List.mem_cons.mp hx with hx | hx
                  · rw [hx]
                    exact Or.inl hmem
                  · exact Or.inr hx
          · intro p
            rw [C p]
            simp only [List.map_cons, List.mem_cons]
            constructor
            · intro hx
              rcases hx with hx | hx
              · exact Or.inl hx
              · exact Or.inr (Or.inr hx)
            · intro hx
              rcases hx with hx | hx | hx
              · exact Or.inl hx
              · rw [hx]
                exact Or.inl hmem
              · exact Or.inr hx
          · obtain ⟨D1, D2, D3, D4⟩ := D
            subst hc hd
            refine ⟨?_, ?_, ?_, ?_⟩
            · rw [List.countP_cons]
              simp [entryCopyCounted, D1]
            · rw [List.countP_cons]
              simp [D2]
            · rw [List.countP_cons]
              simp [D3]
            · rw [List.countP_cons]
              simp [D4]
          · subst hc
            rw [E]
            have hset2 : ((sg :: rest).map Song.export_path).toFinset
                \ seen.toFinset
                = (rest.map Song.export_path).toFinset \ seen.toFinset := by
              ext x
              simp only [List.map_cons, List.toFinset_cons, Finset.mem_sdiff,
                Finset.mem_insert, List.mem_toFinset]
              constructor
              · intro hx
                rcases hx.1 with h1 | h1
                · subst h1
                  exact absurd hmem (by simpa using hx.2)
                · exact ⟨h1, hx.2⟩
              · intro hx
                exact ⟨Or.inr hx.1, hx.2⟩
            rw [hset2]
          · subst hc hd
            simp only [List.length_cons]
            omega
          · intro e he
            rcases List.mem_cons.mp he with he | he
            · rw [he]
              exact hemp
            · exact G e he
      · rw [if_neg hmem] at h
        cases hrec : previewGo rest (seen ++ [sg.export_path]) with
        | none => rw [hrec] at h; simp at h
        | some res =>
          obtain ⟨es', c', d', sn'⟩ := res
          rw [hrec] at h
          simp at h
          obtain ⟨hes, hc, hd, hsn⟩ := h
          obtain ⟨A, B, C, D, E, F, G⟩ := ih (seen ++ [sg.export_path])
            es' c' d' sn' hrec
          subst hes hsn
          refine ⟨by simp [A], ?_, ?_, ?_, ?_, ?_, ?_⟩
          · intro i hi
            cases i with
            | zero =>
              refine ⟨?_, by simp, by simp⟩
              simp only [List.getD_cons_zero]
              rw [if_neg (by simp [hmem])]
            | succ j =>
              have hj : j < rest.length := by simpa using hi
              obtain ⟨B1, B2, B3⟩ := B j hj
              refine ⟨?_, by simpa using B2, by simpa using B3⟩
              simp only [List.getD_cons_succ, List.take_succ_cons,
                List.map_cons]
              rw [B1]
              apply if_congr _ rfl rfl
              constructor
              · intro hx
                rcases hx with hx | hx
                · rcases List.mem_append.mp hx with h1 | h1
                  · exact Or.inl h1
                  · refine Or.inr (List.mem_cons.mpr (Or.inl ?_))
                    rw [List.mem_singleton] at h1
                    exact h1
                · exact Or.inr (List.mem_cons_of_mem _ hx)
              · intro hx
                rcases hx with hx | hx
                · exact Or.inl (List.mem_append.mpr (Or.inl hx))
                · rcases List.mem_cons.mp hx with h1 | h1
                  · refine Or.inl (List.mem_append.mpr (Or.inr ?_))
                    rw [List.mem_singleton]
                    exact h1
                  · exact Or.inr h1
          · intro p
            rw [C p]
            simp only [List.mem_append, List.map_cons, List.mem_cons,
              List.mem_singleton]
            tauto
          · obtain ⟨D1, D2, D3, D4⟩ := D
            subst hc hd
            refine ⟨?_, ?_, ?_, ?_⟩
            · rw [List.countP_cons]
              simp [entryCopyCounted, hemp, D1]
            · rw [List.countP_cons]
              simp [D2]
            · rw [List.countP_cons]
              simp [D3]
            · rw [List.countP_cons]
              simp [D4]
          · subst hc
            rw [E]
            have hset : ((sg :: rest).map Song.export_path).toFinset
                \ seen.toFinset
                = insert sg.export_path
                    ((rest.map Song.export_path).toFinset
                      \ (seen ++ [sg.export_path]).toFinset) := by
              ext x
              by_cases h2 : x = sg.export_path
              · subst h2
                simp [hmem]
              · simp only [List.map_cons, List.toFinset_cons,
                  List.toFinset_append, Finset.mem_sdiff, Finset.mem_insert,
                  Finset.mem_union, List.mem_toFinset]
                simp [h2]
            rw [hset, Finset.card_insert_of_not_mem]
            · omega
            · simp
          · subst hc hd
            simp only [List.length_cons]
            omega
          · intro e he
            rcases List.mem_cons.mp he with he | he
            · rw [he]
              exact hemp
            · exact G e he

/-- C1: a completed planning run over candidate songs and a destination
listing with no file equal to any planned path classifies, in song order,
the first entry bearing each distinct destination path as Copy (no tag)
and every later entry with an already-seen path as Duplicate — exactly
`K` Copy and `N − K` Duplicate entries for `K` distinct planned paths —
and appends exactly one Delete entry per existing file. -/
theorem claim_C1_preview_reconciliation (songs : List Song)
    (walkFiles : List String) (st : SyncState)
    (hrun : runPreview songs walkFiles = some st)
    (hM : ∀ f ∈ walkFiles, ∀ sg ∈ songs, f ≠ sg.export_path) :
    st.entries.length = songs.length + walkFiles.length
    ∧ (∀ i, i < songs.length →
        (st.entries.getD i default).tag
          = if (songs.getD i default).export_path
              ∈ (songs.take i).map Song.export_path
            then Tag.DUPLICATE else Tag.BLANK)
    ∧ st.entries.drop songs.length
        = walkFiles.map (fun f => ⟨f, "", Tag.DELETE⟩)
    ∧ (st.entries.countP (fun e => (e.tag = Tag.BLANK : Bool)) : Int)
        = ((songs.map Song.export_path).toFinset.card : Int)
    ∧ (st.entries.countP (fun e => (e.tag = Tag.DUPLICATE : Bool)) : Int)
        = (songs.length : Int)
          - ((songs.map Song.export_path).toFinset.card : Int)
    ∧ st.entries.countP (fun e => (e.tag = Tag.DELETE : Bool))
        = walkFiles.length := by
  unfold runPreview at hrun
  cases hp : previewGo songs [] with
  | none => rw [hp] at hrun; simp at hrun
  | some res =>
    obtain ⟨es, c, d, sn⟩ := res
    rw [hp] at hrun
    simp at hrun
    obtain ⟨A, B, C, D, E, F, G⟩ := previewGo_spec songs [] es c d sn hp
    obtain ⟨D1, D2, D3, D4⟩ := D
    have hdel : walkFiles.filter (fun f => !decide (f ∈ sn)) = walkFiles := by
      apply List.filter_eq_self.mpr
      intro f hf
      simp only [Bool.not_eq_true', decide_eq_false_iff_not]
      intro hcon
      rcases (C f).mp hcon with h1 | h1
      · simp at h1
      · rw [List.mem_map] at h1
        rcases h1 with ⟨sg, hsg, hfp⟩
        exact hM f hf sg hsg hfp.symm
    rw [← hrun]
    rw [hdel]
    have hcnt0 : (walkFiles.map
        (fun f => (⟨f, "", Tag.DELETE⟩ : Entry))).countP
          (fun e => (e.tag = Tag.BLANK : Bool)) = 0 := by
      apply List.countP_eq_zero.mpr
      intro a ha
      rw [List.mem_map] at ha
      rcases ha with ⟨f, _, hfa⟩
      subst hfa
      simp
    have hcnt1 : (walkFiles.map
        (fun f => (⟨f, "", Tag.DELETE⟩ : Entry))).countP
          (fun e => (e.tag = Tag.DUPLICATE : Bool)) = 0 := by
      apply List.countP_eq_zero.mpr
      intro a ha
      rw [List.mem_map] at ha
      rcases ha with ⟨f, _, hfa⟩
      subst hfa
      simp
    have hcnt2 : (walkFiles.map
        (fun f => (⟨f, "", Tag.DELETE⟩ : Entry))).countP
          (fun e => (e.tag = Tag.DELETE : Bool)) = walkFiles.length := by
      rw [List.countP_eq_length.mpr]
      · simp
      · intro a ha
        rw [List.mem_map] at ha
        rcases ha with ⟨f, _, hfa⟩
        subst hfa
        simp
    have hE : c = ((songs.map Song.export_path).toFinset.card : Int) := by
      rw [E]
      simp
    refine ⟨?_, ?_, ?_, ?_, ?_, ?_⟩
    · simp [A]
    · intro i hi
      have hB := (B i hi).1
      rw [List.getD_append _ _ _ _ (by omega)]
      rw [hB]
      apply if_congr _ rfl rfl
      simp
    · rw [← A]
      exact List.drop_left _ _
    · rw [List.countP_append, hcnt0]
      simp only [Nat.add_zero]
      rw [D2, hE]
    · rw [List.countP_append, hcnt1]
      simp only [Nat.add_zero]
      rw [D3]
      rw [hE] at F
      omega
    · rw [List.countP_append, D4, hcnt2]
      simp

/-- The concrete planning input for the C1 witness: three songs, two of
which plan to the same destination path, and one stray existing file. -/
def c1songs : List Song := [⟨"/m/f1", "/d/a"⟩, ⟨"/m/f2", "/d/a"⟩,
  ⟨"/m/f3", "/d/b"⟩]

/-- The PlanSet produced by planning the C1 witness input. -/
def c1state : SyncState :=
  { entries := [⟨"/m/f1", "/d/a", Tag.BLANK⟩, ⟨"/m/f2", "/d/a", Tag.DUPLICATE⟩,
      ⟨"/m/f3", "/d/b", Tag.BLANK⟩, ⟨"/d/c", "", Tag.DELETE⟩],
    c_songs_copy := 2, c_song_dupes := 1, c_songs_delete := 1 }

/-- Witness for C1 on a concrete run: N = 3 songs, K = 2 distinct paths,
M = 1 stray file — 2 Copy, 1 Duplicate, 1 Delete. -/
theorem claim_C1_preview_reconciliation_witness :
    runPreview c1songs ["/d/c"] = some c1state
    ∧ (∀ f ∈ ["/d/c"], ∀ sg ∈ c1songs, f ≠ sg.export_path)
    ∧ c1state.entries.length = c1songs.length + 1
    ∧ (∀ i, i < c1songs.length →
        (c1state.entries.getD i default).tag
          = if (c1songs.getD i default).export_path
              ∈ (c1songs.take i).map Song.export_path
            then Tag.DUPLICATE else Tag.BLANK)
    ∧ c1state.entries.drop c1songs.length
        = ["/d/c"].map (fun f => ⟨f, "", Tag.DELETE⟩)
    ∧ (c1state.entries.countP (fun e => (e.tag = Tag.BLANK : Bool)) : Int)
        = ((c1songs.map Song.export_path).toFinset.card : Int)
    ∧ (c1state.entries.countP (fun e => (e.tag = Tag.DUPLICATE : Bool)) : Int)
        = (c1songs.length : Int)
          - ((c1songs.map Song.export_path).toFinset.card : Int)
    ∧ c1state.entries.countP (fun e => (e.tag = Tag.DELETE : Bool)) = 1 :=
  ⟨by decide, by decide,
    (claim_C1_preview_reconciliation c1songs ["/d/c"] c1state (by decide)
      (by decide)).1,
    (claim_C1_preview_reconciliation c1songs ["/d/c"] c1state (by decide)
      (by decide)).2.1,
    (claim_C1_preview_reconciliation c1songs ["/d/c"] c1state (by decide)
      (by decide)).2.2.1,
    (claim_C1_preview_reconciliation c1songs ["/d/c"] c1state (by decide)
      (by decide)).2.2.2.1,
    (claim_C1_preview_reconciliation c1songs ["/d/c"] c1state (by decide)
      (by decide)).2.2.2.2.1,
    (claim_C1_preview_reconciliation c1songs ["/d/c"] c1state (by decide)
      (by decide)).2.2.2.2.2⟩

theorem export_display_of_blank (e : Entry) (h : e.tag = Tag.BLANK) :
    e.export_display = e.export_path := by
  unfold Entry.export_display
  rw [h]

theorem export_display_eq_empty_iff (e : Entry) :
    e.export_display = "" ↔ e.tag = Tag.BLANK ∧ e.export_path = "" := by
  unfold Entry.export_display
  cases htag : e.tag <;> simp [Tag.str]
  case DUPLICATE =>
    intro h
    by_cases hp : e.export_path = "" <;> simp [hp] at h
    have := congrArg String.data h
    simp [String.data_append] at this
  case DELETE =>
    intro h
    by_cases hp : e.export_path = "" <;> simp [hp] at h
    have := congrArg String.data h
    simp [String.data_append] at this

/-! ## C9: overriding with the currently displayed value is a no-op -/

/-- C9: overriding an entry's destination path with its current value (the
text currently shown in the Export Path cell) is a no-op: the entry, every
other entry and all three counters are unchanged, and no log line is
printed. -/
theorem claim_C9_override_current_value_noop (s : SyncState) (i : Nat)
    (dest : String) :
    row_edited s i ((s.entryAt i).export_display) dest = (s, []) := by
  unfold row_edited
  simp

/-! ## C10: delete entries cannot be reclassified except to Skip -/

/-- C10: a `DELETE`-tagged entry is immutable under every override with a
nonempty text (unique, already in use, or the `<DELETE>` tag itself): the
whole state is unchanged.  The only override that affects it is the empty
string, which removes the tag and blanks the path (a Skip entry, which the
executor passes over without any action), decrementing the delete counter
and leaving the other counters and entries unchanged. -/
theorem claim_C10_delete_entry_immutable (s : SyncState) (i : Nat)
    (t dest : String)
    (htag : (s.entryAt i).tag = Tag.DELETE) :
    (t ≠ "" → (row_edited s i t dest).1 = s) ∧
    ((row_edited s i "" dest).1.entries
        = s.entries.set i
            { s.entryAt i with tag := Tag.BLANK, export_path := "" }
      ∧ (row_edited s i "" dest).1.c_songs_delete = s.c_songs_delete - 1
      ∧ (row_edited s i "" dest).1.c_songs_copy = s.c_songs_copy
      ∧ (row_edited s i "" dest).1.c_song_dupes = s.c_song_dupes
      ∧ ∀ fs, stepEntry fs
          { s.entryAt i with tag := Tag.BLANK, export_path := "" }
          = some (fs, [])) := by
  have hne : (s.entryAt i).export_display ≠ "" := by
    intro h
    rcases (export_display_eq_empty_iff _).mp h with ⟨hb, _⟩
    rw [htag] at hb
    exact absurd hb (by decide)
  constructor
  · intro ht
    by_cases hg : (s.entryAt i).export_display = t
    · simp [row_edited, hg]
    · simp [row_edited, hg, hne, htag, ht]
  · refine ⟨?_, ?_, ?_, ?_, ?_⟩ <;>
      simp [row_edited, hne, htag, make_skip, setEntry, stepEntry]

/-- A one-entry state with a single delete entry, used as the C10 witness
input. -/
def sampleDeleteState : SyncState :=
  { entries := [⟨"/d/old.mp3", "", Tag.DELETE⟩], c_songs_delete := 1 }

/-- Witness for C10 at a concrete delete entry. -/
theorem claim_C10_delete_entry_immutable_witness :
    ((sampleDeleteState.entryAt 0).tag = Tag.DELETE) ∧
    (("x" ≠ "" → (row_edited sampleDeleteState 0 "x" "/d").1
        = sampleDeleteState) ∧
      ((row_edited sampleDeleteState 0 "" "/d").1.entries
          = sampleDeleteState.entries.set 0
              { sampleDeleteState.entryAt 0 with
                  tag := Tag.BLANK, export_path := "" }
        ∧ (row_edited sampleDeleteState 0 "" "/d").1.c_songs_delete
            = sampleDeleteState.c_songs_delete - 1
        ∧ (row_edited sampleDeleteState 0 "" "/d").1.c_songs_copy
            = sampleDeleteState.c_songs_copy
        ∧ (row_edited sampleDeleteState 0 "" "/d").1.c_song_dupes
            = sampleDeleteState.c_song_dupes
        ∧ ∀ fs, stepEntry fs
            { sampleDeleteState.entryAt 0 with
                tag := Tag.BLANK, export_path := "" }
            = some (fs, []))) :=
  ⟨by decide,
    claim_C10_delete_entry_immutable sampleDeleteState 0 "x" "/d" (by decide)⟩

/-! ## C6 and C2: the counter invariant and duplicate re-evaluation -/

/-- The three counters agree with the PlanSet: the copy counter counts the
untagged entries with a nonempty export path, the duplicate and delete
counters count the `DUPLICATE`- and `DELETE`-tagged entries. -/
def countersOk (s : SyncState) : Prop :=
  s.c_songs_copy = (s.entries.countP entryCopyCounted : Int)
  ∧ s.c_song_dupes
      = (s.entries.countP (fun e => (e.tag = Tag.DUPLICATE : Bool)) : Int)
  ∧ s.c_songs_delete
      = (s.entries.countP (fun e => (e.tag = Tag.DELETE : Bool)) : Int)

/-- No `DUPLICATE`-tagged entry has an empty export path (true of every
state reachable from planning). -/
def noDupEmpty (s : SyncState) : Prop :=
  ∀ e ∈ s.entries, e.tag = Tag.DUPLICATE → e.export_path ≠ ""

theorem getD_set_self (l : List Entry) (j : Nat) (a : Entry)
    (h : j < l.length) : (l.set j a).getD j default = a := by
  rw [List.getD_eq_getElem _ _ (by simpa using h)]
  exact List.getElem_set_self _

theorem countP_set_int (p : Entry → Bool) (l : List Entry) (j : Nat)
    (a : Entry) (h : j < l.length) :
    (((l.set j a).countP p : Nat) : Int)
      = (l.countP p : Int) + (if p a then 1 else 0)
        - (if p (l.getD j default) then 1 else 0) := by
  induction l generalizing j with
  | nil => simp at h
  | cons b r ih =>
    cases j with
    | zero =>
      simp only [List.set_cons_zero, List.countP_cons, List.getD_cons_zero]
      by_cases hpa : p a <;> by_cases hpb : p b <;>
        simp [hpa, hpb] <;> omega
    | succ n =>
      have hn : n < r.length := by simpa using h
      simp only [List.set_cons_succ, List.countP_cons, List.getD_cons_succ]
      have := ih n hn
      by_cases hpa : p a <;> by_cases hpb : p b <;>
        simp [hpa, hpb] at this ⊢ <;> omega

theorem countersOk_update (s s' : SyncState) (j : Nat) (e' : Entry)
    (hj : j < s.entries.length)
    (hent : s'.entries = s.entries.set j e')
    (hc : s'.c_songs_copy = s.c_songs_copy
      + ((if entryCopyCounted e' then (1 : Int) else 0)
        - (if entryCopyCounted (s.entryAt j) then (1 : Int) else 0)))
    (hd : s'.c_song_dupes = s.c_song_dupes
      + ((if (e'.tag = Tag.DUPLICATE : Bool) then (1 : Int) else 0)
        - (if ((s.entryAt j).tag = Tag.DUPLICATE : Bool) then (1 : Int)
            else 0)))
    (hl : s'.c_songs_delete = s.c_songs_delete
      + ((if (e'.tag = Tag.DELETE : Bool) then (1 : Int) else 0)
        - (if ((s.entryAt j).tag = Tag.DELETE : Bool) then (1 : Int)
            else 0)))
    (h : countersOk s) : countersOk s' := by
  obtain ⟨h1, h2, h3⟩ := h
  unfold SyncState.entryAt at hc hd hl
  refine ⟨?_, ?_, ?_⟩
  · rw [hent, countP_set_int _ _ _ _ hj, hc, h1]
    ring
  · rw [hent, countP_set_int _ _ _ _ hj, hd, h2]
    ring
  · rw [hent, countP_set_int _ _ _ _ hj, hl, h3]
    ring

theorem noDupEmpty_set (s : SyncState) (j : Nat) (e' : Entry)
    (hnde : noDupEmpty s)
    (he' : e'.tag = Tag.DUPLICATE → e'.export_path ≠ "") :
    ∀ e ∈ s.entries.set j e', e.tag = Tag.DUPLICATE → e.export_path ≠ "" := by
  intro e he
  rcases List.mem_or_eq_of_mem_set he with he | he
  · exact hnde e he
  · rw [he]
    exact he'

theorem getPaths_ne_zero_path_ne_empty (s : SyncState) (p : String)
    (hnde : noDupEmpty s) (h : getPaths s p ≠ 0) : p ≠ "" := by
  unfold getPaths at h
  have hne : s.entries.filter
      (fun e => decide (e.tag ≠ Tag.DELETE ∧ e.export_display ≠ ""
        ∧ e.export_path = p)) ≠ [] := by
    intro hc
    rw [hc] at h
    exact h rfl
  obtain ⟨e, he⟩ := List.exists_mem_of_ne_nil _ hne
  rw [List.mem_filter] at he
  have hprops := of_decide_eq_true he.2
  obtain ⟨htag, hdisp, hpath⟩ := hprops
  intro hp0
  rw [hp0] at hpath
  cases hcase : e.tag with
  | BLANK =>
    apply hdisp
    rw [export_display_of_blank e hcase, hpath]
  | DUPLICATE => exact hnde e he.1 hcase hpath
  | DELETE => exact htag hcase

theorem make_duplicate_inv (s : SyncState) (j : Nat)
    (hj : j < s.entries.length)
    (htag : (s.entryAt j).tag = Tag.BLANK)
    (hpath : (s.entryAt j).export_path ≠ "")
    (h : countersOk s) (hnde : noDupEmpty s) :
    countersOk (make_duplicate s j true)
    ∧ noDupEmpty (make_duplicate s j true)
    ∧ (make_duplicate s j true).entries.length = s.entries.length := by
  have hcount : entryCopyCounted (s.entryAt j) = true := by
    simp [entryCopyCounted, htag, hpath]
  refine ⟨?_, ?_, by simp [make_duplicate, setEntry]⟩
  · apply countersOk_update s _ j { s.entryAt j with tag := Tag.DUPLICATE }
      hj (by simp [make_duplicate, setEntry]) ?_ ?_ ?_ h
    · simp [make_duplicate, setEntry, entryCopyCounted, htag, hpath]
      try omega
    · simp [make_duplicate, setEntry, htag]
      try omega
    · simp [make_duplicate, setEntry, htag]
      try omega
  · intro e he
    have he2 : e ∈ s.entries.set j { s.entryAt j with tag := Tag.DUPLICATE }
        := by simpa [make_duplicate, setEntry] using he
    exact noDupEmpty_set s j { s.entryAt j with tag := Tag.DUPLICATE }
      hnde (fun _ => hpath) e he2

theorem make_unique_inv (s : SyncState) (j : Nat)
    (hj : j < s.entries.length)
    (htag : (s.entryAt j).tag = Tag.DUPLICATE)
    (hpath : (s.entryAt j).export_path ≠ "")
    (h : countersOk s) (hnde : noDupEmpty s) :
    countersOk (make_unique s j true)
    ∧ noDupEmpty (make_unique s j true)
    ∧ (make_unique s j true).entries.length = s.entries.length := by
  refine ⟨?_, ?_, by simp [make_unique, setEntry]⟩
  · apply countersOk_update s _ j { s.entryAt j with tag := Tag.BLANK }
      hj (by simp [make_unique, setEntry]) ?_ ?_ ?_ h
    · simp [make_unique, setEntry, entryCopyCounted, htag, hpath]
      try omega
    · simp [make_unique, setEntry, htag]
      try omega
    · simp [make_unique, setEntry, htag]
      try omega
  · intro e he
    have he2 : e ∈ s.entries.set j { s.entryAt j with tag := Tag.BLANK }
        := by simpa [make_unique, setEntry] using he
    exact noDupEmpty_set s j { s.entryAt j with tag := Tag.BLANK }
      hnde (fun hc => by simp at hc) e he2

theorem updateOthersGo_inv (i : Nat) (newPath : String) (js : List Nat)
    (s : SyncState) (counter : Nat)
    (h : countersOk s) (hnde : noDupEmpty s) :
    countersOk (updateOthersGo i newPath js s counter).1
    ∧ noDupEmpty (updateOthersGo i newPath js s counter).1 := by
  induction js generalizing s counter with
  | nil => exact ⟨h, hnde⟩
  | cons j js ih =>
    unfold updateOthersGo
    by_cases h1 : j = i ∨ (s.entryAt j).export_display = "<DELETE>"
        ∨ (s.entryAt j).export_display = ""
    · rw [if_pos h1]
      exact ih s counter h hnde
    · rw [if_neg h1]
      push_neg at h1
      obtain ⟨hji, hdel1, hdisp⟩ := h1
      have hj : j < s.entries.length := by
        by_contra hc
        apply hdisp
        unfold SyncState.entryAt
        rw [List.getD_eq_default _ _ (by omega)]
        rfl
      by_cases h2 : (s.entryAt j).export_path = newPath
          ∧ (s.entryAt j).tag = Tag.BLANK
      · rw [if_pos h2]
        have hpath : (s.entryAt j).export_path ≠ "" := by
          intro hc
          apply hdisp
          rw [export_display_of_blank _ h2.2, hc]
        obtain ⟨hA, hB, _⟩ := make_duplicate_inv s j hj h2.2 hpath h hnde
        exact ih _ _ hA hB
      · rw [if_neg h2]
        by_cases h3 : (s.entryAt j).tag = Tag.DUPLICATE
            ∧ (s.entryAt j).export_path ≠ newPath
            ∧ getPaths s (s.entryAt j).export_path = 1
        · rw [if_pos h3]
          have hj2 : (s.entryAt j) ∈ s.entries := by
            unfold SyncState.entryAt
            rw [List.getD_eq_getElem _ _ (by simpa using hj)]
            exact List.getElem_mem _
          have hpath : (s.entryAt j).export_path ≠ "" :=
            hnde _ hj2 h3.1
          obtain ⟨hA, hB, _⟩ := make_unique_inv s j hj h3.1 hpath h hnde
          exact ih _ _ hA hB
        · rw [if_neg h3]
          exact ih s counter h hnde

theorem entryAt_mem (s : SyncState) (i : Nat) (hi : i < s.entries.length) :
    s.entryAt i ∈ s.entries := by
  unfold SyncState.entryAt
  rw [List.getD_eq_getElem _ _ (by simpa using hi)]
  exact List.getElem_mem _

theorem setPath_entries (X : SyncState) (i : Nat) (p : String) :
    (setPath X i p).entries
      = X.entries.set i { X.entryAt i with export_path := p } := rfl

theorem entryAt_set_self (s : SyncState) (i : Nat) (e1 : Entry)
    (hi : i < s.entries.length) :
    (setEntry s i e1).entryAt i = e1 := by
  unfold SyncState.entryAt setEntry
  exact getD_set_self _ _ _ hi

theorem make_duplicate_entries (s : SyncState) (j : Nat) (b : Bool) :
    (make_duplicate s j b).entries
      = s.entries.set j { s.entryAt j with tag := Tag.DUPLICATE } := rfl

theorem make_unique_entries (s : SyncState) (j : Nat) (b : Bool) :
    (make_unique s j b).entries
      = s.entries.set j { s.entryAt j with tag := Tag.BLANK } := rfl

theorem make_skip_entries (s : SyncState) (j : Nat) :
    (make_skip s j).entries
      = s.entries.set j
          { s.entryAt j with tag := Tag.BLANK, export_path := "" } := rfl

theorem entryAt_make_duplicate (s : SyncState) (j : Nat) (b : Bool)
    (hj : j < s.entries.length) :
    (make_duplicate s j b).entryAt j
      = { s.entryAt j with tag := Tag.DUPLICATE } := by
  unfold SyncState.entryAt
  rw [make_duplicate_entries]
  exact getD_set_self _ _ _ hj

theorem entryAt_make_unique (s : SyncState) (j : Nat) (b : Bool)
    (hj : j < s.entries.length) :
    (make_unique s j b).entryAt j
      = { s.entryAt j with tag := Tag.BLANK } := by
  unfold SyncState.entryAt
  rw [make_unique_entries]
  exact getD_set_self _ _ _ hj

/-- The central preservation fact behind the amended C6: an override whose
text is empty, the `<DELETE>` tag, or parses to a nonempty path keeps the
counters consistent with the PlanSet. -/
theorem row_edited_inv (s : SyncState) (i : Nat) (t dest : String)
    (hi : i < s.entries.length)
    (h : countersOk s) (hnde : noDupEmpty s)
    (hgood : parseNewPath t ≠ "" ∨ t = "" ∨ t = "<DELETE>") :
    countersOk (row_edited s i t dest).1
    ∧ noDupEmpty (row_edited s i t dest).1 := by
  unfold row_edited
  by_cases hg : (s.entryAt i).export_display = t
  · rw [if_pos hg]
    exact ⟨h, hnde⟩
  · rw [if_neg hg]
    dsimp only
    split_ifs with c1 c2 c3 c4 c5 c6 c7 c8 c9 c10 c11 c12 c13 c14
    -- old path blank, new blank: unreachable in effect, state unchanged
    · exact ⟨h, hnde⟩
    -- old blank, new `<DELETE>`, filename under the destination
    · obtain ⟨htag, hpath⟩ := (export_display_eq_empty_iff _).mp c1
      refine ⟨?_, ?_⟩
      · apply countersOk_update s _ i
          { s.entryAt i with tag := Tag.DELETE } hi rfl ?_ ?_ ?_ h
        · simp [setEntry, entryCopyCounted, htag, hpath]
          try omega
        · simp [setEntry, htag]
          try omega
        · simp [setEntry, htag]
          try omega
      · intro e he
        rw [show ({ setEntry s i { s.entryAt i with tag := Tag.DELETE } with
            c_songs_delete := s.c_songs_delete + 1 } : SyncState).entries
          = s.entries.set i { s.entryAt i with tag := Tag.DELETE }
          from rfl] at he
        exact noDupEmpty_set s i _ hnde (fun hc => by simp at hc) e he
    -- old blank, new `<DELETE>`, filename outside the destination
    · exact ⟨h, hnde⟩
    -- old blank, new path already previewed
    · obtain ⟨htag, hpath⟩ := (export_display_eq_empty_iff _).mp c1
      have hnp : parseNewPath t ≠ "" :=
        getPaths_ne_zero_path_ne_empty s _ hnde c5
    -- composite entry: tag set to DUPLICATE, then path overwritten
      refine ⟨?_, ?_⟩
      · apply countersOk_update s _ i
          ⟨(s.entryAt i).filename, parseNewPath t, Tag.DUPLICATE⟩
          hi ?_ ?_ ?_ ?_ h
        · rw [setPath_entries, make_duplicate_entries,
            entryAt_make_duplicate s i false hi, List.set_set]
        · simp [setPath, make_duplicate, setEntry, entryCopyCounted, htag,
            hpath]
          try omega
        · simp [setPath, make_duplicate, setEntry, htag]
          try omega
        · simp [setPath, make_duplicate, setEntry, htag]
          try omega
      · intro e he
        rw [setPath_entries, make_duplicate_entries,
          entryAt_make_duplicate s i false hi, List.set_set] at he
        exact noDupEmpty_set s i _ hnde (fun _ => hnp) e he
    -- old blank, new unique path
    · obtain ⟨htag, hpath⟩ := (export_display_eq_empty_iff _).mp c1
      have hnp : parseNewPath t ≠ "" := by
        rcases hgood with hx | hx | hx
        · exact hx
        · exact absurd hx c2
        · exact absurd hx c3
      refine ⟨?_, ?_⟩
      · apply countersOk_update s _ i
          ⟨(s.entryAt i).filename, parseNewPath t, Tag.BLANK⟩
          hi ?_ ?_ ?_ ?_ h
        · rw [setPath_entries, make_unique_entries,
            entryAt_make_unique s i false hi, List.set_set]
        · simp [setPath, make_unique, setEntry, entryCopyCounted, htag,
            hpath, hnp]
          try omega
        · simp [setPath, make_unique, setEntry, htag]
          try omega
        · simp [setPath, make_unique, setEntry, htag]
          try omega
      · intro e he
        rw [setPath_entries, make_unique_entries,
          entryAt_make_unique s i false hi, List.set_set] at he
        exact noDupEmpty_set s i _ hnde (fun hc => by simp at hc) e he
    -- old delete, new blank: becomes a skip entry
    · refine ⟨?_, ?_⟩
      · apply countersOk_update s _ i
          { s.entryAt i with tag := Tag.BLANK, export_path := "" }
          hi rfl ?_ ?_ ?_ h
        · simp [make_skip, setEntry, entryCopyCounted, c6]
          try omega
        · simp [make_skip, setEntry, c6]
          try omega
        · simp [make_skip, setEntry, c6]
          try omega
      · intro e he
        rw [show ({ make_skip s i with
            c_songs_delete := s.c_songs_delete - 1 } : SyncState).entries
          = s.entries.set i
              { s.entryAt i with tag := Tag.BLANK, export_path := "" }
          from rfl] at he
        exact noDupEmpty_set s i _ hnde (fun hc => by simp at hc) e he
    -- old delete, new nonblank: untouched
    · exact ⟨h, hnde⟩
    -- old duplicate, new blank: skip, then update the others
    · have hstep : countersOk
          { make_skip s i with c_song_dupes := s.c_song_dupes - 1 }
          ∧ noDupEmpty
          { make_skip s i with c_song_dupes := s.c_song_dupes - 1 } := by
        refine ⟨?_, ?_⟩
        · apply countersOk_update s _ i
            { s.entryAt i with tag := Tag.BLANK, export_path := "" }
            hi rfl ?_ ?_ ?_ h
          · simp [make_skip, setEntry, entryCopyCounted, c8]
            try omega
          · simp [make_skip, setEntry, c8]
            try omega
          · simp [make_skip, setEntry, c8]
            try omega
        · intro e he
          rw [show ({ make_skip s i with
              c_song_dupes := s.c_song_dupes - 1 } : SyncState).entries
            = s.entries.set i
                { s.entryAt i with tag := Tag.BLANK, export_path := "" }
            from rfl] at he
          exact noDupEmpty_set s i _ hnde (fun hc => by simp at hc) e he
      exact updateOthersGo_inv i _ _ _ 0 hstep.1 hstep.2
    -- old duplicate, new `<DELETE>`: same as blank
    · have hstep : countersOk
          { make_skip s i with c_song_dupes := s.c_song_dupes - 1 }
          ∧ noDupEmpty
          { make_skip s i with c_song_dupes := s.c_song_dupes - 1 } := by
        refine ⟨?_, ?_⟩
        · apply countersOk_update s _ i
            { s.entryAt i with tag := Tag.BLANK, export_path := "" }
            hi rfl ?_ ?_ ?_ h
          · simp [make_skip, setEntry, entryCopyCounted, c8]
            try omega
          · simp [make_skip, setEntry, c8]
            try omega
          · simp [make_skip, setEntry, c8]
            try omega
        · intro e he
          rw [show ({ make_skip s i with
              c_song_dupes := s.c_song_dupes - 1 } : SyncState).entries
            = s.entries.set i
                { s.entryAt i with tag := Tag.BLANK, export_path := "" }
            from rfl] at he
          exact noDupEmpty_set s i _ hnde (fun hc => by simp at hc) e he
      exact updateOthersGo_inv i _ _ _ 0 hstep.1 hstep.2
    -- old duplicate, new already-previewed path: path rewritten in place
    · have hnp : parseNewPath t ≠ "" :=
        getPaths_ne_zero_path_ne_empty s _ hnde c11
      refine ⟨?_, ?_⟩
      · apply countersOk_update s _ i
          { s.entryAt i with export_path := parseNewPath t }
          hi (setPath_entries s i _) ?_ ?_ ?_ h
        · simp [setPath, setEntry, entryCopyCounted, c8]
          try omega
        · simp [setPath, setEntry, c8]
          try omega
        · simp [setPath, setEntry, c8]
          try omega
      · intro e he
        rw [setPath_entries] at he
        exact noDupEmpty_set s i _ hnde (fun _ => hnp) e he
    -- old duplicate, new unique: becomes a copy with the new path
    · have hnp : parseNewPath t ≠ "" := by
        rcases hgood with hx | hx | hx
        · exact hx
        · exact absurd hx c9
        · exact absurd hx c10
      refine ⟨?_, ?_⟩
      · apply countersOk_update s _ i
          ⟨(s.entryAt i).filename, parseNewPath t, Tag.BLANK⟩
          hi ?_ ?_ ?_ ?_ h
        · rw [setPath_entries, make_unique_entries,
            entryAt_make_unique s i true hi, List.set_set]
        · simp [setPath, make_unique, setEntry, entryCopyCounted, c8, hnp]
          try omega
        · simp [setPath, make_unique, setEntry, c8]
          try omega
        · simp [setPath, make_unique, setEntry, c8]
          try omega
      · intro e he
        rw [setPath_entries, make_unique_entries,
          entryAt_make_unique s i true hi, List.set_set] at he
        exact noDupEmpty_set s i _ hnde (fun hc => by simp at hc) e he
    -- old unique, new blank: skip, then update the others
    · have hbl : (s.entryAt i).tag = Tag.BLANK := by
        cases hcase : (s.entryAt i).tag with
        | BLANK => rfl
        | DUPLICATE => exact absurd hcase c8
        | DELETE => exact absurd hcase c6
      have hpne : (s.entryAt i).export_path ≠ "" := by
        intro hc
        apply c1
        rw [export_display_of_blank _ hbl, hc]
      have hstep : countersOk
          { make_skip s i with c_songs_copy := s.c_songs_copy - 1 }
          ∧ noDupEmpty
          { make_skip s i with c_songs_copy := s.c_songs_copy - 1 } := by
        refine ⟨?_, ?_⟩
        · apply countersOk_update s _ i
            { s.entryAt i with tag := Tag.BLANK, export_path := "" }
            hi rfl ?_ ?_ ?_ h
          · simp [make_skip, setEntry, entryCopyCounted, hbl, hpne]
            try omega
          · simp [make_skip, setEntry, hbl]
            try omega
          · simp [make_skip, setEntry, hbl]
            try omega
        · intro e he
          rw [show ({ make_skip s i with
              c_songs_copy := s.c_songs_copy - 1 } : SyncState).entries
            = s.entries.set i
                { s.entryAt i with tag := Tag.BLANK, export_path := "" }
            from rfl] at he
          exact noDupEmpty_set s i _ hnde (fun hc => by simp at hc) e he
      exact updateOthersGo_inv i _ _ _ 0 hstep.1 hstep.2
    -- old unique, new `<DELETE>`: same as blank
    · have hbl : (s.entryAt i).tag = Tag.BLANK := by
        cases hcase : (s.entryAt i).tag with
        | BLANK => rfl
        | DUPLICATE => exact absurd hcase c8
        | DELETE => exact absurd hcase c6
      have hpne : (s.entryAt i).export_path ≠ "" := by
        intro hc
        apply c1
        rw [export_display_of_blank _ hbl, hc]
      have hstep : countersOk
          { make_skip s i with c_songs_copy := s.c_songs_copy - 1 }
          ∧ noDupEmpty
          { make_skip s i with c_songs_copy := s.c_songs_copy - 1 } := by
        refine ⟨?_, ?_⟩
        · apply countersOk_update s _ i
            { s.entryAt i with tag := Tag.BLANK, export_path := "" }
            hi rfl ?_ ?_ ?_ h
          · simp [make_skip, setEntry, entryCopyCounted, hbl, hpne]
            try omega
          · simp [make_skip, setEntry, hbl]
            try omega
          · simp [make_skip, setEntry, hbl]
            try omega
        · intro e he
          rw [show ({ make_skip s i with
              c_songs_copy := s.c_songs_copy - 1 } : SyncState).entries
            = s.entries.set i
                { s.entryAt i with tag := Tag.BLANK, export_path := "" }
            from rfl] at he
          exact noDupEmpty_set s i _ hnde (fun hc => by simp at hc) e he
      exact updateOthersGo_inv i _ _ _ 0 hstep.1 hstep.2
    -- old unique, new already-previewed path: promoted to duplicate
    · have hbl : (s.entryAt i).tag = Tag.BLANK := by
        cases hcase : (s.entryAt i).tag with
        | BLANK => rfl
        | DUPLICATE => exact absurd hcase c8
        | DELETE => exact absurd hcase c6
      have hpne : (s.entryAt i).export_path ≠ "" := by
        intro hc
        apply c1
        rw [export_display_of_blank _ hbl, hc]
      have hnp : parseNewPath t ≠ "" :=
        getPaths_ne_zero_path_ne_empty s _ hnde c14
      refine ⟨?_, ?_⟩
      · apply countersOk_update s _ i
          ⟨(s.entryAt i).filename, parseNewPath t, Tag.DUPLICATE⟩
          hi ?_ ?_ ?_ ?_ h
        · rw [setPath_entries, make_duplicate_entries,
            entryAt_make_duplicate s i true hi, List.set_set]
        · simp [setPath, make_duplicate, setEntry, entryCopyCounted, hbl,
            hpne]
          try omega
        · simp [setPath, make_duplicate, setEntry, hbl]
          try omega
        · simp [setPath, make_duplicate, setEntry, hbl]
          try omega
      · intro e he
        rw [setPath_entries, make_duplicate_entries,
          entryAt_make_duplicate s i true hi, List.set_set] at he
        exact noDupEmpty_set s i _ hnde (fun _ => hnp) e he
    -- old unique, new unique: path rewritten, then update the others
    · have hbl : (s.entryAt i).tag = Tag.BLANK := by
        cases hcase : (s.entryAt i).tag with
        | BLANK => rfl
        | DUPLICATE => exact absurd hcase c8
        | DELETE => exact absurd hcase c6
      have hpne : (s.entryAt i).export_path ≠ "" := by
        intro hc
        apply c1
        rw [export_display_of_blank _ hbl, hc]
      have hnp : parseNewPath t ≠ "" := by
        rcases hgood with hx | hx | hx
        · exact hx
        · exact absurd hx c12
        · exact absurd hx c13
      have hstep : countersOk (setPath s i (parseNewPath t))
          ∧ noDupEmpty (setPath s i (parseNewPath t)) := by
        refine ⟨?_, ?_⟩
        · apply countersOk_update s _ i
            { s.entryAt i with export_path := parseNewPath t }
            hi (setPath_entries s i _) ?_ ?_ ?_ h
          · simp [setPath, setEntry, entryCopyCounted, hbl, hpne, hnp]
            try omega
          · simp [setPath, setEntry, hbl]
            try omega
          · simp [setPath, setEntry, hbl]
            try omega
        · intro e he
          rw [setPath_entries] at he
          exact noDupEmpty_set s i _ hnde (fun hc => by simp [hbl] at hc)
            e he
      exact updateOthersGo_inv i _ _ _ 0 hstep.1 hstep.2

/-- Branch of `_row_edited`: a unique (Copy) entry overridden to an
already-previewed path is promoted to `DUPLICATE` with the parsed path;
no other entry is touched and no sibling re-evaluation runs. -/
theorem row_edited_unique_to_dup (s : SyncState) (i : Nat) (t dest : String)
    (hi : i < s.entries.length)
    (htag : (s.entryAt i).tag = Tag.BLANK)
    (hpath : (s.entryAt i).export_path ≠ "")
    (hne : (s.entryAt i).export_display ≠ t)
    (ht0 : t ≠ "") (htd : t ≠ "<DELETE>")
    (hdup : getPaths s (parseNewPath t) ≠ 0) :
    (row_edited s i t dest).1.entries
      = s.entries.set i
          ⟨(s.entryAt i).filename, parseNewPath t, Tag.DUPLICATE⟩
    ∧ (row_edited s i t dest).1.c_songs_copy = s.c_songs_copy - 1
    ∧ (row_edited s i t dest).1.c_song_dupes = s.c_song_dupes + 1
    ∧ (row_edited s i t dest).1.c_songs_delete = s.c_songs_delete := by
  unfold row_edited
  dsimp only
  rw [if_neg hne]
  rw [if_neg (show ¬(s.entryAt i).export_display = "" from by
    rw [export_display_of_blank _ htag]
    exact hpath)]
  rw [if_neg (show ¬(s.entryAt i).tag = Tag.DELETE from by
    rw [htag]
    simp)]
  rw [if_neg (show ¬(s.entryAt i).tag = Tag.DUPLICATE from by
    rw [htag]
    simp)]
  rw [if_neg ht0, if_neg htd, if_pos hdup]
  dsimp only
  refine ⟨?_, rfl, rfl, rfl⟩
  rw [setPath_entries, make_duplicate_entries,
    entryAt_make_duplicate s i true hi, List.set_set]

/-- Branch of `_row_edited`: a `DUPLICATE` entry overridden to a fresh
unique path becomes a Copy entry with the new path; no other entry is
touched. -/
theorem row_edited_dup_to_unique (s : SyncState) (i : Nat) (t dest : String)
    (hi : i < s.entries.length)
    (htag : (s.entryAt i).tag = Tag.DUPLICATE)
    (hne : (s.entryAt i).export_display ≠ t)
    (ht0 : t ≠ "") (htd : t ≠ "<DELETE>")
    (hfresh : getPaths s (parseNewPath t) = 0) :
    (row_edited s i t dest).1.entries
      = s.entries.set i
          ⟨(s.entryAt i).filename, parseNewPath t, Tag.BLANK⟩
    ∧ (row_edited s i t dest).1.c_songs_copy = s.c_songs_copy + 1
    ∧ (row_edited s i t dest).1.c_song_dupes = s.c_song_dupes - 1
    ∧ (row_edited s i t dest).1.c_songs_delete = s.c_songs_delete := by
  unfold row_edited
  dsimp only
  rw [if_neg hne]
  rw [if_neg (show ¬(s.entryAt i).export_display = "" from by
    intro hc
    rcases (export_display_eq_empty_iff _).mp hc with ⟨hb, _⟩
    rw [htag] at hb
    exact absurd hb (by decide))]
  rw [if_neg (show ¬(s.entryAt i).tag = Tag.DELETE from by
    rw [htag]
    simp)]
  rw [if_pos htag]
  rw [if_neg ht0, if_neg htd,
    if_neg (show ¬getPaths s (parseNewPath t) ≠ 0 from fun hc => hc hfresh)]
  dsimp only
  refine ⟨?_, rfl, rfl, rfl⟩
  rw [setPath_entries, make_unique_entries,
    entryAt_make_unique s i true hi, List.set_set]

/-- The state built by `_run_preview` from the classified songs and the
stray files found on the device. -/
def withDeletes (es : List Entry) (c d : Int) (fs : List String) :
    SyncState :=
  ⟨es ++ fs.map (fun f => (⟨f, "", Tag.DELETE⟩ : Entry)), c, d,
    ((fs.map (fun f => (⟨f, "", Tag.DELETE⟩ : Entry))).length : Int)⟩

theorem withDeletes_inv (es : List Entry) (c d : Int) (fs : List String)
    (h1 : (es.countP entryCopyCounted : Int) = c)
    (h3 : (es.countP (fun e => (e.tag = Tag.DUPLICATE : Bool)) : Int) = d)
    (h4 : es.countP (fun e => (e.tag = Tag.DELETE : Bool)) = 0)
    (h5 : ∀ e ∈ es, e.export_path ≠ "") :
    countersOk (withDeletes es c d fs) ∧ noDupEmpty (withDeletes es c d fs)
    := by
  have hform : ∀ e ∈ fs.map (fun f => (⟨f, "", Tag.DELETE⟩ : Entry)),
      e.export_path = "" ∧ e.tag = Tag.DELETE := by
    intro e he
    obtain ⟨f, _, hf⟩ := List.mem_map.mp he
    rw [← hf]
    exact ⟨rfl, rfl⟩
  have hdc : (fs.map (fun f => (⟨f, "", Tag.DELETE⟩ : Entry))).countP
      entryCopyCounted = 0 := by
    rw [List.countP_eq_zero]
    intro e he
    obtain ⟨hp, ht⟩ := hform e he
    simp [entryCopyCounted, hp, ht]
  have hdd : (fs.map (fun f => (⟨f, "", Tag.DELETE⟩ : Entry))).countP
      (fun e => (e.tag = Tag.DUPLICATE : Bool)) = 0 := by
    rw [List.countP_eq_zero]
    intro e he
    simp [(hform e he).2]
  have hdl : (fs.map (fun f => (⟨f, "", Tag.DELETE⟩ : Entry))).countP
      (fun e => (e.tag = Tag.DELETE : Bool))
      = (fs.map (fun f => (⟨f, "", Tag.DELETE⟩ : Entry))).length := by
    rw [List.countP_eq_length]
    intro e he
    simp [(hform e he).2]
  constructor
  · unfold countersOk withDeletes
    dsimp only
    refine ⟨?_, ?_, ?_⟩
    · rw [List.countP_append, hdc]
      omega
    · rw [List.countP_append, hdd]
      omega
    · rw [List.countP_append, h4]
      omega
  · unfold noDupEmpty withDeletes
    dsimp only
    intro e he hd
    rcases List.mem_append.mp he with he | he
    · exact h5 e he
    · rw [(hform e he).2] at hd
      exact absurd hd (by decide)

/-- Planning establishes the counter invariant: the final counters count
exactly the Copy-, Duplicate- and Delete-classified entries, and no
Duplicate entry carries an empty path. -/
theorem runPreview_inv (songs : List Song) (walkFiles : List String)
    (st : SyncState) (hrun : runPreview songs walkFiles = some st) :
    countersOk st ∧ noDupEmpty st := by
  unfold runPreview at hrun
  cases hp : previewGo songs [] with
  | none =>
    rw [hp] at hrun
    exact Option.noConfusion hrun
  | some res =>
    obtain ⟨es, c, d, sn⟩ := res
    rw [hp] at hrun
    obtain ⟨A, B, C, D, E, F, G⟩ := previewGo_spec songs [] es c d sn hp
    obtain ⟨D1, D2, D3, D4⟩ := D
    have hst : st = withDeletes es c d
        (walkFiles.filter (fun f => decide (f ∉ sn))) :=
      (Option.some.inj hrun).symm
    rw [hst]
    exact withDeletes_inv es c d _ D1 D3 D4 G

/-- C6: the three counters agree with a recount of the PlanSet — the
copy counter equals the number of untagged entries with a nonempty export
path, the duplicate and delete counters equal the number of
`DUPLICATE`- and `DELETE`-tagged entries — after planning completes, and
the agreement is preserved by every override whose text is empty, is
`<DELETE>`, or parses to a nonempty path. -/
theorem claim_C6_counters_recomputable :
    (∀ (songs : List Song) (walkFiles : List String) (st : SyncState),
      runPreview songs walkFiles = some st →
      countersOk st ∧ noDupEmpty st)
    ∧ (∀ (s : SyncState) (i : Nat) (t dest : String),
        i < s.entries.length → countersOk s → noDupEmpty s →
        (parseNewPath t ≠ "" ∨ t = "" ∨ t = "<DELETE>") →
        countersOk (row_edited s i t dest).1
        ∧ noDupEmpty (row_edited s i t dest).1) :=
  ⟨runPreview_inv, row_edited_inv⟩

/-- C6 counterexample: the override text `">"` parses to an empty path,
which turns a Copy entry into a Skip entry without touching the copy
counter — the counter says 1 but the PlanSet recount says 0, so the
counters are not always recomputable from the PlanSet. -/
theorem claim_C6_counterexample :
    (row_edited ((runPreview [⟨"/m/f1", "/d/a"⟩] []).getD default)
        0 ">" "/d").1.c_songs_copy = 1
    ∧ (row_edited ((runPreview [⟨"/m/f1", "/d/a"⟩] []).getD default)
        0 ">" "/d").1.entries.countP entryCopyCounted = 0 := by
  decide

/-- The two-song planning state used by the C6 witness. -/
def c6state : SyncState :=
  ⟨[⟨"/m/g1", "/d/p", Tag.BLANK⟩, ⟨"/m/g2", "/d/p", Tag.DUPLICATE⟩],
    1, 1, 0⟩

/-- Witness for C6: a concrete plan of two songs sharing a path
establishes the invariant, and a concrete override to a fresh path
preserves it. -/
theorem claim_C6_counters_recomputable_witness :
    runPreview [⟨"/m/g1", "/d/p"⟩, ⟨"/m/g2", "/d/p"⟩] [] = some c6state
    ∧ countersOk (row_edited c6state 0 "/d/q" "/d").1
    ∧ noDupEmpty (row_edited c6state 0 "/d/q" "/d").1 := by
  have h0 : runPreview [⟨"/m/g1", "/d/p"⟩, ⟨"/m/g2", "/d/p"⟩] []
      = some c6state := by decide
  have h1 := claim_C6_counters_recomputable.1
    [⟨"/m/g1", "/d/p"⟩, ⟨"/m/g2", "/d/p"⟩] [] c6state h0
  have h2 := claim_C6_counters_recomputable.2 c6state 0 "/d/q" "/d"
    (by decide) h1.1 h1.2 (Or.inl (by decide))
  exact ⟨h0, h2.1, h2.2⟩

/-- C2 (corrected): overriding a Copy entry to a path already in use
promotes exactly that entry to `DUPLICATE` and leaves every other entry
untouched — the handler performs no transitive re-evaluation in this
branch, so a Duplicate left as the sole holder of its path is not demoted
— while the spec's concrete two-song scenario does hold: when two songs
plan to the same path and the Duplicate's path is overridden to a fresh
unique value, both entries end classified Copy. -/
theorem claim_C2_override_reevaluation :
    (∀ (s : SyncState) (i : Nat) (t dest : String),
      i < s.entries.length →
      (s.entryAt i).tag = Tag.BLANK →
      (s.entryAt i).export_path ≠ "" →
      (s.entryAt i).export_display ≠ t →
      t ≠ "" → t ≠ "<DELETE>" →
      getPaths s (parseNewPath t) ≠ 0 →
      (row_edited s i t dest).1.entries
        = s.entries.set i
            ⟨(s.entryAt i).filename, parseNewPath t, Tag.DUPLICATE⟩)
    ∧ (∀ (s1 s2 : Song) (q dest : String) (st0 : SyncState),
        s1.export_path = s2.export_path →
        runPreview [s1, s2] [] = some st0 →
        q ≠ "" → q ≠ "<DELETE>" → q ≠ s1.export_path →
        (⟨s2.filename, s2.export_path, Tag.DUPLICATE⟩ : Entry).export_display
          ≠ q →
        parseNewPath q = q →
        (row_edited st0 1 q dest).1.entries
          = [⟨s1.filename, s1.export_path, Tag.BLANK⟩,
             ⟨s2.filename, q, Tag.BLANK⟩]
        ∧ (row_edited st0 1 q dest).1.c_songs_copy = 2
        ∧ (row_edited st0 1 q dest).1.c_song_dupes = 0) := by
  constructor
  · intro s i t dest hi htag hpath hne ht0 htd hdup
    exact (row_edited_unique_to_dup s i t dest hi htag hpath hne ht0 htd
      hdup).1
  · intro s1 s2 q dest st0 hpa hrun hq0 hqd hqp hqdisp hqparse
    have hemp : s1.export_path ≠ "" := by
      intro hc
      unfold runPreview previewGo at hrun
      rw [if_pos hc] at hrun
      exact Option.noConfusion hrun
    have hs2emp : s2.export_path ≠ "" := by
      rw [← hpa]
      exact hemp
    have hmem : s2.export_path ∈ ([] : List String) ++ [s1.export_path] := by
      simp [hpa]
    have hst : st0 = ⟨[⟨s1.filename, s1.export_path, Tag.BLANK⟩,
        ⟨s2.filename, s2.export_path, Tag.DUPLICATE⟩], 1, 1, 0⟩ := by
      unfold runPreview previewGo at hrun
      rw [if_neg hemp,
        if_neg (show ¬s1.export_path ∈ ([] : List String) from
          List.not_mem_nil _)] at hrun
      unfold previewGo at hrun
      rw [if_neg hs2emp, if_pos hmem] at hrun
      unfold previewGo at hrun
      exact (Option.some.inj hrun).symm
    have hfresh : getPaths st0 (parseNewPath q) = 0 := by
      rw [hqparse, hst]
      unfold getPaths
      rw [← List.countP_eq_length_filter]
      apply List.countP_eq_zero.mpr
      intro e he
      rcases List.mem_cons.mp he with he | he
      · subst he
        simp only [decide_eq_true_eq, not_and]
        intro _ _ hc
        exact hqp hc.symm
      · rcases List.mem_cons.mp he with he | he
        · subst he
          simp only [decide_eq_true_eq, not_and]
          intro _ _ hc
          apply hqp
          rw [hpa]
          exact hc.symm
        · exact absurd he (List.not_mem_nil e)
    have h := row_edited_dup_to_unique st0 1 q dest
      (by rw [hst]; show (1 : Nat) < 2; decide)
      (by rw [hst]; rfl)
      (by rw [hst]; exact hqdisp)
      hq0 hqd hfresh
    refine ⟨?_, ?_, ?_⟩
    · rw [h.1, hst, hqparse]
      rfl
    · rw [h.2.1, hst]
      show (1 : Int) + 1 = 2
      decide
    · rw [h.2.2.1, hst]
      show (1 : Int) - 1 = 0
      decide

/-- A state whose Copy entry at index 0 is overridden to the in-use path
of entry 1 by the C2 witness. -/
def c2a : SyncState :=
  ⟨[⟨"/m/h1", "/d/w", Tag.BLANK⟩, ⟨"/m/h2", "/d/x", Tag.BLANK⟩], 2, 0, 0⟩

/-- The planning state of the two-song scenario used by the C2 witness. -/
def c2b : SyncState :=
  ⟨[⟨"/m/h1", "/d/w", Tag.BLANK⟩, ⟨"/m/h2", "/d/w", Tag.DUPLICATE⟩],
    1, 1, 0⟩

/-- Witness for C2: a concrete promotion to `DUPLICATE` touching only the
edited entry, and the concrete two-song scenario ending with both entries
classified Copy. -/
theorem claim_C2_override_reevaluation_witness :
    ((row_edited c2a 0 "/d/x" "/d").1.entries
      = c2a.entries.set 0
          ⟨(c2a.entryAt 0).filename, parseNewPath "/d/x", Tag.DUPLICATE⟩)
    ∧ ((row_edited c2b 1 "/d/z" "/d").1.entries
        = [⟨"/m/h1", "/d/w", Tag.BLANK⟩, ⟨"/m/h2", "/d/z", Tag.BLANK⟩]
      ∧ (row_edited c2b 1 "/d/z" "/d").1.c_songs_copy = 2
      ∧ (row_edited c2b 1 "/d/z" "/d").1.c_song_dupes = 0) := by
  constructor
  · exact claim_C2_override_reevaluation.1 c2a 0 "/d/x" "/d" (by decide)
      (by decide) (by decide) (by decide) (by decide) (by decide) (by decide)
  · exact claim_C2_override_reevaluation.2 ⟨"/m/h1", "/d/w"⟩
      ⟨"/m/h2", "/d/w"⟩ "/d/z" "/d" c2b rfl (by decide) (by decide)
      (by decide) (by decide) (by decide) (by decide)

/-- C2 counterexample: entries 0 and 1 plan to `/d/a` (Copy, Duplicate)
and entry 2 to `/d/b`; overriding entry 0 to `/d/b` promotes it to
`DUPLICATE`, after which entry 1 is the sole live holder of `/d/a` yet
stays `DUPLICATE` — the promised transitive demotion back to Copy never
happens. -/
theorem claim_C2_counterexample :
    (row_edited ((runPreview c1songs []).getD default) 0 "/d/b" "/d").1.entries
      = [⟨"/m/f1", "/d/b", Tag.DUPLICATE⟩, ⟨"/m/f2", "/d/a", Tag.DUPLICATE⟩,
         ⟨"/m/f3", "/d/b", Tag.BLANK⟩]
    ∧ getPaths
        (row_edited ((runPreview c1songs []).getD default) 0 "/d/b" "/d").1
        "/d/a" = 1 := by
  decide

end SyncToDevice
